import Mathlib

/-! hash2: structural hashing dispatch (`boost/hash2/hash_append.hpp`)

A shallow embedding of the `hash_append` dispatch of `hash_append.hpp`.

* The accumulator concept `H` (`update`, `result`, copy construction, `size_type`) is the
  record `HashAlgorithm`; every function is generic over it, as the C++ templates are.
* A C++ value together with its static shape category is a `Value`; one constructor per
  `do_hash_append` overload.
* An iterator pair `[first, last)` is an `iterator_range`: which overload of
  `detail::hash_append_range_` it selects, its iterator category, and its elements.
* Machine integers are `Nat`/`Int` with explicit reduction modulo `2 ^ w`.
-/

namespace hash2

/-! Bytes and object representations -/

/-- An octet: `byte_type` of `byte_type.hpp`. -/
abbrev byte_type := Fin 256

/-- Byte order of the object representation of scalars on the platform. -/
inductive Endian
  | little
  | big
  deriving DecidableEq, Repr

/-- The `n` low-order base-256 digits of `x`, least significant first. -/
def le_bytes : Nat → Nat → List byte_type
  | 0, _ => []
  | n + 1, x => ⟨x % 256, Nat.mod_lt x (by decide)⟩ :: le_bytes n (x / 256)

/-- Object representation of an `n`-byte unsigned scalar holding `x`
(what `reinterpret_cast<byte_type const*>( &v )` exposes over `sizeof(T) = n` bytes). -/
def object_bytes (e : Endian) (n x : Nat) : List byte_type :=
  match e with
  | .little => le_bytes n x
  | .big => (le_bytes n x).reverse

/-! The accumulator concept -/

/-- The hash algorithm concept `H` that `hash_append.hpp` is generic over.
`R` is `H::result_type`.

* `update h bs` is the state after `h.update( p, n )` on the `n` bytes `bs`;
* `result h` is the value of `h.result()` (the state it leaves behind is never used by
  `hash_append.hpp`: `result` is only called on the temporary `h2`);
* `copy h` is the state of `h2` after `H h2( h )`;
* `size_type_bytes` is `sizeof(typename H::size_type)`, an unsigned integer type;
* `get_integral_result r` is `get_integral_result<std::uint64_t>( r )`
  (`get_integral_result.hpp`), its value being used modulo `2 ^ 64`. -/
structure HashAlgorithm (H : Type) (R : Type) where
  update : H → List byte_type → H
  result : H → R
  copy : H → H
  size_type_bytes : Nat
  get_integral_result : R → Nat

/-- Number of value bits of `H::size_type`. -/
def HashAlgorithm.size_type_bits {H R : Type} (A : HashAlgorithm H R) : Nat :=
  8 * A.size_type_bytes

/-! Values and iterator ranges -/

/-- The `std::iterator_traits<It>::iterator_category` tags. -/
inductive iterator_category
  | input
  | forward
  | bidirectional
  | random_access
  deriving DecidableEq, Repr

/-- An iterator pair `[first, last)` over elements of type `V`, classified by the overload of
`detail::hash_append_range_` that it selects.

* `byte_pointer bs`: `byte_type *` or `byte_type const *` over the bytes `bs`;
* `leaf_pointer es`: `T *` with `is_contiguously_hashable<T, H>`; `es` lists the object
  representation of each element, so the memory between `first` and `last` is `es.join`;
* `iterator cat es`: any other iterator type (a pointer to a type that is not contiguously
  hashable included, then `cat = random_access`), of category `cat`, yielding `es`. -/
inductive iterator_range (V : Type)
  | byte_pointer (bytes : List byte_type)
  | leaf_pointer (elems : List (List byte_type))
  | iterator (cat : iterator_category) (elems : List V)

/-- Value of `last - first` (also `v.size()` for a container): the number of elements. -/
def iterator_range.distance {V : Type} : iterator_range V → Nat
  | .byte_pointer bs => bs.length
  | .leaf_pointer es => es.length
  | .iterator _ es => es.length

/-- The iterator category of the range: pointers are random access. -/
def iterator_range.category {V : Type} : iterator_range V → iterator_category
  | .byte_pointer _ => .random_access
  | .leaf_pointer _ => .random_access
  | .iterator cat _ => cat

/-- A floating-point type `T` as the platform lays it out and copies it.

* `value_bytes`: the number of bytes of its value representation, a sign bit above
  `8 * value_bytes - 1` bits of biased exponent and significand (4 for `float`, 8 for
  `double`, 10 for the x87 `long double`); the other `sizeof(T) - value_bytes` bytes of an
  object are padding and follow the value bytes (6 for `long double` on x86-64);
* `copy bits`: the bit pattern of `w` after `T w = v` for `v` of bit pattern `bits`: `bits`
  itself where values are copied bit for bit, while a copy through an x87 register quiets a
  signalling NaN. -/
structure floating_point_type where
  value_bytes : Nat
  copy : Nat → Nat

/-- A value to be hashed, tagged with the static shape category that selects its
`do_hash_append` overload.

* `contiguously_hashable bs`: `is_contiguously_hashable<T, H>`; `bs` is the object
  representation, `sizeof(T) = bs.length`;
* `floating_point T sign magnitude padding`: `std::is_floating_point<T>`; the value has the
  given sign bit and `magnitude` bits (biased exponent and significand) and compares equal to
  zero iff `magnitude = 0`; `padding` is what the padding bytes of the local variable `w` of
  `do_hash_append` hold at the call, its initialisation leaving them unwritten (`[]` for a
  type without padding);
* `c_array r`: `T const (&)[N]`, `r` being the range `v + 0`, `v + N`;
* `contiguous_range r`: `is_contiguous_range<T> && !is_tuple_like<T>`, `r` being
  `v.data()`, `v.data() + v.size()`;
* `range r`: `is_range<T> && !is_tuple_like<T> && !is_contiguous_range<T> &&
  !is_unordered_range<T>`, `r` being `v.begin()`, `v.end()`;
* `range_tuple r`: `is_range<T> && is_tuple_like<T>` (`std::array`), `r` being `v.begin()`,
  `v.end()`;
* `unordered_range es`: `is_unordered_range<T>`, `es` in iteration order;
* `tuple_like es`: `!is_range<T> && is_tuple_like<T>`, `es` being `get<0>(v)`, ...,
  `get<N-1>(v)`. -/
inductive Value
  | contiguously_hashable (bytes : List byte_type)
  | floating_point (T : floating_point_type) (sign : Bool) (magnitude : Nat)
      (padding : List byte_type)
  | c_array (r : iterator_range Value)
  | contiguous_range (r : iterator_range Value)
  | range (r : iterator_range Value)
  | range_tuple (r : iterator_range Value)
  | unordered_range (elems : List Value)
  | tuple_like (elems : List Value)

/-! `hash_append.hpp` -/

section Dispatch

variable {H R : Type}

/-- The overload `detail::hash_append_range_( H & h, byte_type const * first,
byte_type const * last )` (lines 57-60; the `byte_type *` one, lines 52-55, is the same):
`h.update( first, last - first )`. -/
def hash_append_range_byte_pointer (A : HashAlgorithm H R) (h : H) (bytes : List byte_type) : H :=
  A.update h bytes

/-- The overload `detail::hash_append_range_( H & h, T * first, T * last )` for contiguously
hashable `T` (lines 62-71): `h.update( f2, l2 - f2 )` over the bytes between the two
pointers. -/
def hash_append_range_leaf_pointer (A : HashAlgorithm H R) (h : H)
    (elems : List (List byte_type)) : H :=
  A.update h elems.flatten

/-- The overload of `do_hash_append` for contiguously hashable `T` (lines 121-128):
`hash_append_range( h, p, p + sizeof(T) )` with `p` the address of the value as bytes. -/
def do_hash_append_contiguously_hashable (A : HashAlgorithm H R) (h : H)
    (bytes : List byte_type) : H :=
  hash_append_range_byte_pointer A h bytes

/-- Bit pattern of the floating-point value with the given sign and magnitude bits, in a
value representation of `value_bytes` bytes. -/
def floating_point_bits (value_bytes : Nat) (sign : Bool) (magnitude : Nat) : Nat :=
  (if sign then 2 ^ (8 * value_bytes - 1) else 0) + magnitude

/-- The comparison `v == 0` on a floating-point value: true for both zeros only. -/
def floating_point_eq_zero (magnitude : Nat) : Bool :=
  magnitude == 0

/-- Bit pattern of `w` after `T w = v == 0? 0: v;` (line 136): positive zero when `v`
compares equal to zero, else the copy of `v`. -/
def floating_point_w (T : floating_point_type) (sign : Bool) (magnitude : Nat) : Nat :=
  if floating_point_eq_zero magnitude then 0
  else T.copy (floating_point_bits T.value_bytes sign magnitude)

/-- The overload of `do_hash_append` for floating point `T` (lines 132-140):
`T w = v == 0? 0: v;` then `hash_append_range( h, p, p + sizeof(T) )` over the `sizeof(T)`
bytes of the local `w`: the bytes of its value representation, then its padding bytes with
whatever they hold. -/
def do_hash_append_floating_point (A : HashAlgorithm H R) (e : Endian) (h : H)
    (T : floating_point_type) (sign : Bool) (magnitude : Nat) (padding : List byte_type) : H :=
  hash_append_range_byte_pointer A h
    (object_bytes e T.value_bytes (floating_point_w T sign magnitude) ++ padding)

/-- The conversion `static_cast<typename H::size_type>( v )`: the value of `v` modulo `2 ^ w`. -/
def static_cast_size_type (A : HashAlgorithm H R) (v : Int) : Nat :=
  (v % (2 : Int) ^ A.size_type_bits).toNat

/-- The function `hash_append_size( H & h, T const & v )` (lines 82-85):
`hash_append( h, static_cast<typename H::size_type>( v ) )`, `size_type` being an unsigned
integer type and so contiguously hashable. -/
def hash_append_size (A : HashAlgorithm H R) (e : Endian) (h : H) (v : Int) : H :=
  do_hash_append_contiguously_hashable A h
    (object_bytes e A.size_type_bytes (static_cast_size_type A v))

/-- The call `hash_append( h, w )` of line 197, for `std::uint64_t w`: a contiguously hashable
type of 8 bytes. -/
def hash_append_uint64 (A : HashAlgorithm H R) (e : Endian) (h : H) (w : Nat) : H :=
  do_hash_append_contiguously_hashable A h (object_bytes e 8 w)

mutual

/-- The entry point `hash_append( H & h, T const & v )` (lines 372-375):
`do_hash_append( h, v )`, the overload being the one enabled for the shape category of `T`
(lines 121-236). -/
def hash_append (A : HashAlgorithm H R) (e : Endian) : H → Value → H
  -- contiguously hashable
  | h, .contiguously_hashable bytes => do_hash_append_contiguously_hashable A h bytes
  -- floating point
  | h, .floating_point T sign magnitude padding =>
      do_hash_append_floating_point A e h T sign magnitude padding
  -- C arrays: hash_append_range( h, v + 0, v + N )
  | h, .c_array r => hash_append_range A e h r
  -- contiguous containers and ranges, w/ size:
  -- hash_append_range( h, v.data(), v.data() + v.size() ); hash_append_size( h, v.size() )
  | h, .contiguous_range r => hash_append_size A e (hash_append_range A e h r) r.distance
  -- containers and ranges, w/ size: hash_append_sized_range( h, v.begin(), v.end() )
  | h, .range r => hash_append_sized_range A e h r
  -- std::array (both range and tuple-like): hash_append_range( h, v.begin(), v.end() )
  | h, .range_tuple r => hash_append_range A e h r
  -- unordered containers: detail::hash_append_unordered_range_( h, v.begin(), v.end() )
  | h, .unordered_range elems => hash_append_unordered_range_ A e h 0 0 elems
  -- tuple-likes: detail::hash_append_tuple( h, v, seq() )
  | h, .tuple_like elems => hash_append_tuple A e h elems

/-- The function `hash_append_range( H & h, It first, It last )` (lines 75-78):
`detail::hash_append_range_`, by overload. -/
def hash_append_range (A : HashAlgorithm H R) (e : Endian) : H → iterator_range Value → H
  | h, .byte_pointer bytes => hash_append_range_byte_pointer A h bytes
  | h, .leaf_pointer elems => hash_append_range_leaf_pointer A h elems
  | h, .iterator _ elems => hash_append_range_ A e h elems

/-- The function `detail::hash_append_range_( H & h, It first, It last )`, the generic overload
(lines 44-50): `for( ; first != last; ++first ) hash_append( h, *first );` -/
def hash_append_range_ (A : HashAlgorithm H R) (e : Endian) : H → List Value → H
  | h, [] => h
  | h, x :: rest => hash_append_range_ A e (hash_append A e h x) rest

/-- The function `hash_append_sized_range( H & h, It first, It last )` (lines 112-115):
`detail::hash_append_sized_range_` on the iterator category tag.
A `random_access_iterator_tag` selects
`hash_append_range( h, first, last ); hash_append_size( h, last - first );` (lines 104-108),
every other tag
converts to `input_iterator_tag` and selects the counting loop. -/
def hash_append_sized_range (A : HashAlgorithm H R) (e : Endian) :
    H → iterator_range Value → H
  | h, .byte_pointer bytes =>
      hash_append_size A e (hash_append_range_byte_pointer A h bytes) bytes.length
  | h, .leaf_pointer elems =>
      hash_append_size A e (hash_append_range_leaf_pointer A h elems) elems.length
  | h, .iterator .random_access elems =>
      hash_append_size A e (hash_append_range_ A e h elems) elems.length
  | h, .iterator _ elems => hash_append_sized_range_input A e h 0 elems

/-- The overload `detail::hash_append_sized_range_( h, first, last, std::input_iterator_tag )`
(lines 92-102), its loop variable `m` (initially `0`) made a parameter:
`for( ; first != last; ++first, ++m ) hash_append( h, *first );` then
`hash_append_size( h, m )`. -/
def hash_append_sized_range_input (A : HashAlgorithm H R) (e : Endian) :
    H → Int → List Value → H
  | h, m, [] => hash_append_size A e h m
  | h, m, x :: rest => hash_append_sized_range_input A e (hash_append A e h x) (m + 1) rest

/-- The function `detail::hash_append_unordered_range_( H & h, It first, It last )`
(lines 182-199), its loop variables `w` and `m` (both initially `0`) made parameters:
`for( ; first != last; ++first, ++m ) { H h2( h ); hash_append( h2, *first );
w += get_integral_result<std::uint64_t>( h2.result() ); }` then
`hash_append( h, w ); hash_append_size( h, m );` -/
def hash_append_unordered_range_ (A : HashAlgorithm H R) (e : Endian) :
    H → Nat → Int → List Value → H
  | h, w, m, [] => hash_append_size A e (hash_append_uint64 A e h w) m
  | h, w, m, x :: rest =>
      hash_append_unordered_range_ A e h
        ((w + A.get_integral_result (A.result (hash_append A e (A.copy h) x)) % 2 ^ 64) % 2 ^ 64)
        (m + 1) rest

/-- The function `detail::hash_append_tuple( H & h, T const& v,
integer_sequence<std::size_t, J...> )` (lines 217-226):
`hash_append( h, get<J>(v) )` for each `J` in index order; nothing for the empty sequence. -/
def hash_append_tuple (A : HashAlgorithm H R) (e : Endian) : H → List Value → H
  | h, [] => h
  | h, x :: rest => hash_append_tuple A e (hash_append A e h x) rest

end

/-! Observing the accumulator input -/

/-- The accumulator `A` instrumented with a log of the `update` calls made on it: each call
appends its byte argument to the log; a copy carries the log of its original. -/
def recording (A : HashAlgorithm H R) : HashAlgorithm (H × List (List byte_type)) R where
  update := fun s bytes => (A.update s.1 bytes, s.2 ++ [bytes])
  result := fun s => A.result s.1
  copy := fun s => (A.copy s.1, s.2)
  size_type_bytes := A.size_type_bytes
  get_integral_result := A.get_integral_result

/-- The `update` calls that `hash_append( h, v )` makes on `h`, in order, each with its
byte argument. -/
def update_calls (A : HashAlgorithm H R) (e : Endian) (h : H) (v : Value) :
    List (List byte_type) :=
  (hash_append (recording A) e (h, []) v).2

/-- The byte stream that `hash_append( h, v )` feeds to `h`: the arguments of its `update`
calls, concatenated. -/
def fed_bytes (A : HashAlgorithm H R) (e : Endian) (h : H) (v : Value) : List byte_type :=
  (update_calls A e h v).flatten

/-- The `update` calls made by dispatching the values `xs` one after the other from the
state `h`, each value from the state the previous ones left. -/
def update_calls_seq (A : HashAlgorithm H R) (e : Endian) :
    H → List Value → List (List byte_type)
  | _, [] => []
  | h, x :: rest => update_calls A e h x ++ update_calls_seq A e (hash_append A e h x) rest

/-- The sub-hash the unordered-range loop adds to `w` for the element `x`:
`get_integral_result<std::uint64_t>( h2.result() )` after `H h2( h ); hash_append( h2, x )`. -/
def element_digest (A : HashAlgorithm H R) (e : Endian) (h : H) (x : Value) : Nat :=
  A.get_integral_result (A.result (hash_append A e (A.copy h) x)) % 2 ^ 64

/-- Element count of a value handled by one of the two sized-range overloads of
`do_hash_append` (contiguous, general); `none` for every other category. -/
def sized_range_count : Value → Option Nat
  | .contiguous_range r => some r.distance
  | .range r => some r.distance
  | _ => none

end Dispatch

/-! Integer source types of `hash_append_size` -/

/-- An integer type: its signedness and its width in bits. -/
structure integer_type where
  is_signed : Bool
  bits : Nat
  deriving DecidableEq, Repr

/-- The value of an object of integer type `t` whose bit pattern is `raw`
(two's complement for signed types). -/
def integer_type.value (t : integer_type) (raw : Nat) : Int :=
  if t.is_signed && decide (2 ^ (t.bits - 1) ≤ raw % 2 ^ t.bits)
  then ((raw % 2 ^ t.bits : Nat) : Int) - ((2 ^ t.bits : Nat) : Int)
  else ((raw % 2 ^ t.bits : Nat) : Int)

/-! A sample accumulator -/

/-- One mixing step of the sample accumulator. -/
def sample_mix (s : Nat) (b : byte_type) : Nat :=
  ((s + b.val) * 16777619) % 2 ^ 32

/-- A sample model of the concept: a 32-bit multiplicative hash with a 32-bit `size_type`,
whose state is its running value and whose copy is the state itself. -/
def sample_hash : HashAlgorithm Nat Nat where
  update := fun s bytes => bytes.foldl sample_mix s
  result := fun s => s
  copy := fun s => s
  size_type_bytes := 4
  get_integral_result := fun r => r

/-! Ranges handed to `hash_append_range` and nested byte ranges -/

section Ranges

variable {H R : Type}

/-- The `update` calls that `hash_append_range( h, first, last )` makes on `h`, in order. -/
def range_update_calls (A : HashAlgorithm H R) (e : Endian) (h : H)
    (r : iterator_range Value) : List (List byte_type) :=
  (hash_append_range (recording A) e (h, []) r).2

/-- The two `do_hash_append` overloads for ranges with a size: the contiguous one, and the
general one with the category of its iterators. -/
inductive sized_range_kind
  | contiguous
  | general (cat : iterator_category)
  deriving DecidableEq, Repr

/-- The shapes of a sized range of bytes: a contiguous container of `byte_type`, handed over
as byte pointers; a contiguous container of another one-byte contiguously hashable type such
as `char`, handed over as pointers to its elements; a general container, with the category of
its iterators. -/
inductive byte_range_kind
  | contiguous_bytes
  | contiguous_chars
  | general (cat : iterator_category)
  deriving DecidableEq, Repr

/-- A sized range of bytes holding `bytes`, of the given shape. -/
def byte_range (k : byte_range_kind) (bytes : List byte_type) : Value :=
  match k with
  | .contiguous_bytes => .contiguous_range (.byte_pointer bytes)
  | .contiguous_chars => .contiguous_range (.leaf_pointer (bytes.map fun b => [b]))
  | .general cat => .range (.iterator cat (bytes.map fun b => .contiguously_hashable [b]))

/-- A sized range whose elements are the values `elems`, none of a contiguously hashable
type. -/
def range_of (k : sized_range_kind) (elems : List Value) : Value :=
  match k with
  | .contiguous => .contiguous_range (.iterator .random_access elems)
  | .general cat => .range (.iterator cat elems)

/-- A sized range of sized ranges of bytes. -/
def range_of_byte_ranges (outer : sized_range_kind) (inner : byte_range_kind)
    (vv : List (List byte_type)) : Value :=
  range_of outer (vv.map (byte_range inner))

/-- A sized range of `width`-byte unsigned integers: a contiguous container, handed over as
pointers to its contiguously hashable elements, or a general container. -/
def integer_range (e : Endian) (k : sized_range_kind) (width : Nat) (xs : List Nat) : Value :=
  match k with
  | .contiguous => .contiguous_range (.leaf_pointer (xs.map (object_bytes e width)))
  | .general cat =>
      .range (.iterator cat (xs.map fun x => .contiguously_hashable (object_bytes e width x)))

mutual

/-- No unordered range occurs in the value, at any depth. -/
def Value.unordered_free : Value → Bool
  | .contiguously_hashable _ => true
  | .floating_point _ _ _ _ => true
  | .c_array r => iterator_range_unordered_free r
  | .contiguous_range r => iterator_range_unordered_free r
  | .range r => iterator_range_unordered_free r
  | .range_tuple r => iterator_range_unordered_free r
  | .unordered_range _ => false
  | .tuple_like elems => list_unordered_free elems

/-- No unordered range occurs in the elements of the iterator range, at any depth. -/
def iterator_range_unordered_free : iterator_range Value → Bool
  | .byte_pointer _ => true
  | .leaf_pointer _ => true
  | .iterator _ elems => list_unordered_free elems

/-- No unordered range occurs in the listed values, at any depth. -/
def list_unordered_free : List Value → Bool
  | [] => true
  | x :: rest => x.unordered_free && list_unordered_free rest

end

end Ranges

/-! Floating-point comparison -/

/-- Whether the magnitude bits encode a NaN in a value representation of `size` bytes with
`fraction_bits` fraction bits: the exponent field is all ones and the fraction is not zero. -/
def floating_point_is_nan (fraction_bits size magnitude : Nat) : Bool :=
  magnitude / 2 ^ fraction_bits == 2 ^ (8 * size - 1 - fraction_bits) - 1
    && magnitude % 2 ^ fraction_bits != 0

/-- The comparison `a != b` on two floating-point values of one format: true when either is
a NaN; false for two zeros of any sign; otherwise true iff the bit patterns differ. -/
def floating_point_ne (fraction_bits size : Nat) (sign1 : Bool) (magnitude1 : Nat)
    (sign2 : Bool) (magnitude2 : Nat) : Bool :=
  floating_point_is_nan fraction_bits size magnitude1
    || floating_point_is_nan fraction_bits size magnitude2
    || !((magnitude1 == 0 && magnitude2 == 0) || (sign1 == sign2 && magnitude1 == magnitude2))

/-! Sample floating-point types -/

/-- The type `double` where values are copied bit for bit. -/
def binary64 : floating_point_type := ⟨8, fun bits => bits⟩

/-- The bit pattern a copy through an x87 register leaves: a signalling NaN, whose top
fraction bit is clear, becomes the quiet NaN of the same payload; every other pattern is
unchanged. -/
def x87_quiet (fraction_bits value_bytes bits : Nat) : Nat :=
  if floating_point_is_nan fraction_bits value_bytes (bits % 2 ^ (8 * value_bytes - 1))
      && (bits / 2 ^ (fraction_bits - 1)) % 2 == 0
  then bits + 2 ^ (fraction_bits - 1)
  else bits

/-- The type `double` on a platform that copies it through the x87 registers. -/
def x87_double : floating_point_type := ⟨8, x87_quiet 52 8⟩

/-- The type `long double` of x86-64: 10 value bytes in an object of 16, copied bit for
bit. -/
def x87_long_double : floating_point_type := ⟨10, fun bits => bits⟩

/-! The guards of the range and tuple overloads of `do_hash_append` -/

/-- The capability predicates of a type `T` that the guards consult. -/
structure type_traits where
  is_range : Bool
  is_contiguous_range : Bool
  is_unordered_range : Bool
  is_tuple_like : Bool
  deriving DecidableEq, Repr

/-- The guard of lines 151-152, contiguous containers and ranges w/ size:
`is_contiguous_range<T>::value && !is_tuple_like<T>::value`. -/
def guard_contiguous_range (t : type_traits) : Bool :=
  t.is_contiguous_range && !t.is_tuple_like

/-- The guard of lines 161-162, containers and ranges w/ size: `is_range<T>::value &&
!is_tuple_like<T>::value && !is_contiguous_range<T>::value && !is_unordered_range<T>::value`. -/
def guard_range (t : type_traits) : Bool :=
  t.is_range && !t.is_tuple_like && !t.is_contiguous_range && !t.is_unordered_range

/-- The guard of lines 170-171, `std::array` (both range and tuple-like):
`is_range<T>::value && is_tuple_like<T>::value`. -/
def guard_range_tuple (t : type_traits) : Bool :=
  t.is_range && t.is_tuple_like

/-- The guard of lines 203-204, unordered containers: `is_unordered_range<T>::value`. -/
def guard_unordered_range (t : type_traits) : Bool :=
  t.is_unordered_range

/-- The guard of lines 230-231, tuple-likes:
`!is_range<T>::value && is_tuple_like<T>::value`. -/
def guard_tuple_like (t : type_traits) : Bool :=
  !t.is_range && t.is_tuple_like

/-- The five guards, in source order. -/
def range_tuple_guards (t : type_traits) : List Bool :=
  [guard_contiguous_range t, guard_range t, guard_range_tuple t, guard_unordered_range t,
    guard_tuple_like t]

/-- How many of the five guards the type satisfies: the number of viable overloads. -/
def enabled_overloads (t : type_traits) : Nat :=
  (range_tuple_guards t).count true

/-! The classification `is_contiguously_hashable` -/

/-- The types the classification test `test/is_contiguously_hashable.cpp` instantiates:
scalar kinds, class types, and `T const` and `T[n]` over them. -/
inductive cpp_type
  | bool_type
  | character
  | integer
  | enumeration
  | pointer
  | floating
  | nullptr_type
  | class_type
  | const_qualified (t : cpp_type)
  | array (t : cpp_type) (n : Nat)
  deriving DecidableEq, Repr

/-- Modelled from the spec: the trait `is_contiguously_hashable<T, H>` of
`boost/hash2/is_contiguously_hashable.hpp`, a header that is not among the sources (only its
test is). The leaf category holds integers, characters, booleans, enumerations and raw
pointers; floating-point types use the separate rule; the test adds that `nullptr_t` and
every class type are not in it, and that `T const` and `T[n]` are classified as `T` is. -/
def is_contiguously_hashable : cpp_type → Bool
  | .bool_type => true
  | .character => true
  | .integer => true
  | .enumeration => true
  | .pointer => true
  | .floating => false
  | .nullptr_type => false
  | .class_type => false
  | .const_qualified t => is_contiguously_hashable t
  | .array t _ => is_contiguously_hashable t

/-- The standard trait `std::is_floating_point<T>`: true for the floating-point types, also
cv-qualified, and for no other type. -/
def is_floating_point : cpp_type → Bool
  | .floating => true
  | .const_qualified t => is_floating_point t
  | _ => false

/-! Properties -/

section Properties

variable {H R : Type}

theorem le_bytes_length (n x : Nat) : (le_bytes n x).length = n := by
  induction n generalizing x with
  | zero => rfl
  | succ n ih => simp [le_bytes, ih]

theorem object_bytes_length (e : Endian) (n x : Nat) : (object_bytes e n x).length = n := by
  cases e <;> simp [object_bytes, le_bytes_length]

theorem le_bytes_injective (n x y : Nat) (hx : x < 256 ^ n) (hy : y < 256 ^ n)
    (h : le_bytes n x = le_bytes n y) : x = y := by
  induction n generalizing x y with
  | zero => simp at hx hy; omega
  | succ n ih =>
    simp only [le_bytes, List.cons.injEq, Fin.mk.injEq] at h
    have hx' : x / 256 < 256 ^ n := by
      rw [Nat.div_lt_iff_lt_mul (by decide)]; rw [pow_succ] at hx; exact hx
    have hy' : y / 256 < 256 ^ n := by
      rw [Nat.div_lt_iff_lt_mul (by decide)]; rw [pow_succ] at hy; exact hy
    have := ih _ _ hx' hy' h.2
    omega

theorem object_bytes_injective (e : Endian) (n x y : Nat) (hx : x < 256 ^ n) (hy : y < 256 ^ n)
    (h : object_bytes e n x = object_bytes e n y) : x = y := by
  cases e
  · exact le_bytes_injective n x y hx hy h
  · exact le_bytes_injective n x y hx hy (List.reverse_injective h)

theorem hash_append_range__eq_foldl (A : HashAlgorithm H R) (e : Endian) (es : List Value) (h : H) :
    hash_append_range_ A e h es = es.foldl (hash_append A e) h := by
  induction es generalizing h with
  | nil => simp [hash_append_range_]
  | cons x rest ih => simp [hash_append_range_, ih]

theorem hash_append_tuple_eq_foldl (A : HashAlgorithm H R) (e : Endian) (es : List Value) (h : H) :
    hash_append_tuple A e h es = es.foldl (hash_append A e) h := by
  induction es generalizing h with
  | nil => simp [hash_append_tuple]
  | cons x rest ih => simp [hash_append_tuple, ih]

theorem hash_append_sized_range_input_eq (A : HashAlgorithm H R) (e : Endian) (es : List Value)
    (h : H) (m : Int) :
    hash_append_sized_range_input A e h m es
      = hash_append_size A e (es.foldl (hash_append A e) h) (m + es.length) := by
  induction es generalizing h m with
  | nil => simp [hash_append_sized_range_input]
  | cons x rest ih =>
    simp only [hash_append_sized_range_input, ih, List.foldl_cons, List.length_cons]
    congr 1
    push_cast
    ring

theorem le_bytes_mod (n x : Nat) : le_bytes n (x % 256 ^ n) = le_bytes n x := by
  induction n generalizing x with
  | zero => rfl
  | succ n ih =>
    simp only [le_bytes, List.cons.injEq, Fin.mk.injEq]
    constructor
    · exact Nat.mod_mod_of_dvd x (Dvd.intro_left (256 ^ n) rfl)
    · rw [pow_succ, Nat.mul_comm, Nat.mod_mul_right_div_self, ih]

theorem object_bytes_mod (e : Endian) (n x : Nat) :
    object_bytes e n (x % 256 ^ n) = object_bytes e n x := by
  cases e <;> simp [object_bytes, le_bytes_mod]

theorem hash_append_uint64_mod (A : HashAlgorithm H R) (e : Endian) (h : H) (w : Nat) :
    hash_append_uint64 A e h (w % 2 ^ 64) = hash_append_uint64 A e h w := by
  have : (2 : Nat) ^ 64 = 256 ^ 8 := by norm_num
  simp only [hash_append_uint64, this, object_bytes_mod]

theorem hash_append_unordered_range__eq (A : HashAlgorithm H R) (e : Endian) (es : List Value)
    (h : H) (w : Nat) (m : Int) :
    hash_append_unordered_range_ A e h w m es
      = hash_append_size A e
          (hash_append_uint64 A e h ((w + (es.map (element_digest A e h)).sum) % 2 ^ 64))
          (m + es.length) := by
  induction es generalizing w m with
  | nil =>
    simp only [hash_append_unordered_range_, List.map_nil, List.sum_nil, Nat.add_zero,
      List.length_nil, Nat.cast_zero, add_zero, hash_append_uint64_mod]
  | cons x rest ih =>
    simp only [hash_append_unordered_range_, ih, List.map_cons, List.sum_cons, List.length_cons]
    have hw : (((w + A.get_integral_result (A.result (hash_append A e (A.copy h) x)) % 2 ^ 64)
          % 2 ^ 64
        + (rest.map (element_digest A e h)).sum) % 2 ^ 64)
        = (w + (element_digest A e h x + (rest.map (element_digest A e h)).sum)) % 2 ^ 64 := by
      unfold element_digest
      omega
    rw [hw]
    congr 1
    push_cast
    ring

theorem recording_size_fst (A : HashAlgorithm H R) (e : Endian)
    (s : H × List (List byte_type)) (v : Int) :
    (hash_append_size (recording A) e s v).1 = hash_append_size A e s.1 v := rfl

theorem recording_size_snd (A : HashAlgorithm H R) (e : Endian)
    (s : H × List (List byte_type)) (v : Int) :
    (hash_append_size (recording A) e s v).2
      = s.2 ++ [object_bytes e A.size_type_bytes (static_cast_size_type A v)] := rfl

theorem recording_uint64_fst (A : HashAlgorithm H R) (e : Endian)
    (s : H × List (List byte_type)) (w : Nat) :
    (hash_append_uint64 (recording A) e s w).1 = hash_append_uint64 A e s.1 w := rfl

theorem recording_uint64_snd (A : HashAlgorithm H R) (e : Endian)
    (s : H × List (List byte_type)) (w : Nat) :
    (hash_append_uint64 (recording A) e s w).2 = s.2 ++ [object_bytes e 8 w] := rfl

mutual

theorem recording_fst_hash_append (A : HashAlgorithm H R) (e : Endian) :
    ∀ (v : Value) (s : H × List (List byte_type)),
      (hash_append (recording A) e s v).1 = hash_append A e s.1 v
  | .contiguously_hashable _, _ => rfl
  | .floating_point _ _ _ _, _ => rfl
  | .c_array r, s => by
    simp only [hash_append]; exact recording_fst_hash_append_range A e r s
  | .contiguous_range r, s => by
    simp only [hash_append, recording_size_fst, recording_fst_hash_append_range A e r s]
  | .range r, s => by
    simp only [hash_append]; exact recording_fst_hash_append_sized_range A e r s
  | .range_tuple r, s => by
    simp only [hash_append]; exact recording_fst_hash_append_range A e r s
  | .unordered_range es, s => by
    simp only [hash_append]; exact recording_fst_hash_append_unordered_range_ A e es s 0 0
  | .tuple_like es, s => by
    simp only [hash_append]; exact recording_fst_hash_append_tuple A e es s

theorem recording_fst_hash_append_range (A : HashAlgorithm H R) (e : Endian) :
    ∀ (r : iterator_range Value) (s : H × List (List byte_type)),
      (hash_append_range (recording A) e s r).1 = hash_append_range A e s.1 r
  | .byte_pointer _, _ => rfl
  | .leaf_pointer _, _ => rfl
  | .iterator _ es, s => by
    simp only [hash_append_range]; exact recording_fst_hash_append_range_ A e es s

theorem recording_fst_hash_append_range_ (A : HashAlgorithm H R) (e : Endian) :
    ∀ (es : List Value) (s : H × List (List byte_type)),
      (hash_append_range_ (recording A) e s es).1 = hash_append_range_ A e s.1 es
  | [], _ => rfl
  | x :: rest, s => by
    simp only [hash_append_range_]
    rw [recording_fst_hash_append_range_ A e rest, recording_fst_hash_append A e x]

theorem recording_fst_hash_append_sized_range (A : HashAlgorithm H R) (e : Endian) :
    ∀ (r : iterator_range Value) (s : H × List (List byte_type)),
      (hash_append_sized_range (recording A) e s r).1 = hash_append_sized_range A e s.1 r
  | .byte_pointer _, _ => rfl
  | .leaf_pointer _, _ => rfl
  | .iterator .random_access es, s => by
    simp only [hash_append_sized_range, recording_size_fst,
      recording_fst_hash_append_range_ A e es s]
  | .iterator .input es, s => by
    simp only [hash_append_sized_range]
    exact recording_fst_hash_append_sized_range_input A e es s 0
  | .iterator .forward es, s => by
    simp only [hash_append_sized_range]
    exact recording_fst_hash_append_sized_range_input A e es s 0
  | .iterator .bidirectional es, s => by
    simp only [hash_append_sized_range]
    exact recording_fst_hash_append_sized_range_input A e es s 0

theorem recording_fst_hash_append_sized_range_input (A : HashAlgorithm H R) (e : Endian) :
    ∀ (es : List Value) (s : H × List (List byte_type)) (m : Int),
      (hash_append_sized_range_input (recording A) e s m es).1
        = hash_append_sized_range_input A e s.1 m es
  | [], _, _ => rfl
  | x :: rest, s, m => by
    simp only [hash_append_sized_range_input]
    rw [recording_fst_hash_append_sized_range_input A e rest, recording_fst_hash_append A e x]

theorem recording_fst_hash_append_unordered_range_ (A : HashAlgorithm H R) (e : Endian) :
    ∀ (es : List Value) (s : H × List (List byte_type)) (w : Nat) (m : Int),
      (hash_append_unordered_range_ (recording A) e s w m es).1
        = hash_append_unordered_range_ A e s.1 w m es
  | [], _, _, _ => rfl
  | x :: rest, s, w, m => by
    simp only [hash_append_unordered_range_]
    rw [recording_fst_hash_append_unordered_range_ A e rest]
    have := recording_fst_hash_append A e x ((recording A).copy s)
    simp only [recording] at this ⊢
    rw [this]

theorem recording_fst_hash_append_tuple (A : HashAlgorithm H R) (e : Endian) :
    ∀ (es : List Value) (s : H × List (List byte_type)),
      (hash_append_tuple (recording A) e s es).1 = hash_append_tuple A e s.1 es
  | [], _ => rfl
  | x :: rest, s => by
    simp only [hash_append_tuple]
    rw [recording_fst_hash_append_tuple A e rest, recording_fst_hash_append A e x]

end


mutual

theorem recording_snd_hash_append (A : HashAlgorithm H R) (e : Endian) :
    ∀ (v : Value) (s : H × List (List byte_type)),
      (hash_append (recording A) e s v).2
        = s.2 ++ (hash_append (recording A) e (s.1, []) v).2
  | .contiguously_hashable _, _ => rfl
  | .floating_point _ _ _ _, _ => rfl
  | .c_array r, s => by
    simp only [hash_append]; exact recording_snd_hash_append_range A e r s
  | .contiguous_range r, s => by
    simp only [hash_append, recording_size_snd]
    rw [recording_snd_hash_append_range A e r s, List.append_assoc]
  | .range r, s => by
    simp only [hash_append]; exact recording_snd_hash_append_sized_range A e r s
  | .range_tuple r, s => by
    simp only [hash_append]; exact recording_snd_hash_append_range A e r s
  | .unordered_range es, s => by
    simp only [hash_append]; exact recording_snd_hash_append_unordered_range_ A e es s 0 0
  | .tuple_like es, s => by
    simp only [hash_append]; exact recording_snd_hash_append_tuple A e es s

theorem recording_snd_hash_append_range (A : HashAlgorithm H R) (e : Endian) :
    ∀ (r : iterator_range Value) (s : H × List (List byte_type)),
      (hash_append_range (recording A) e s r).2
        = s.2 ++ (hash_append_range (recording A) e (s.1, []) r).2
  | .byte_pointer _, _ => rfl
  | .leaf_pointer _, _ => rfl
  | .iterator _ es, s => by
    simp only [hash_append_range]; exact recording_snd_hash_append_range_ A e es s

theorem recording_snd_hash_append_range_ (A : HashAlgorithm H R) (e : Endian) :
    ∀ (es : List Value) (s : H × List (List byte_type)),
      (hash_append_range_ (recording A) e s es).2
        = s.2 ++ (hash_append_range_ (recording A) e (s.1, []) es).2
  | [], s => by simp [hash_append_range_]
  | x :: rest, s => by
    simp only [hash_append_range_]
    rw [recording_snd_hash_append_range_ A e rest (hash_append (recording A) e s x),
      recording_snd_hash_append_range_ A e rest (hash_append (recording A) e (s.1, []) x),
      recording_snd_hash_append A e x s, recording_fst_hash_append,
      recording_fst_hash_append, List.append_assoc]

theorem recording_snd_hash_append_sized_range (A : HashAlgorithm H R) (e : Endian) :
    ∀ (r : iterator_range Value) (s : H × List (List byte_type)),
      (hash_append_sized_range (recording A) e s r).2
        = s.2 ++ (hash_append_sized_range (recording A) e (s.1, []) r).2
  | .byte_pointer _, s => by
    simp only [hash_append_sized_range, recording_size_snd]
    simp [hash_append_range_byte_pointer, recording]
  | .leaf_pointer _, s => by
    simp only [hash_append_sized_range, recording_size_snd]
    simp [hash_append_range_leaf_pointer, recording]
  | .iterator .random_access es, s => by
    simp only [hash_append_sized_range, recording_size_snd]
    rw [recording_snd_hash_append_range_ A e es s, List.append_assoc]
  | .iterator .input es, s => by
    simp only [hash_append_sized_range]
    exact recording_snd_hash_append_sized_range_input A e es s 0
  | .iterator .forward es, s => by
    simp only [hash_append_sized_range]
    exact recording_snd_hash_append_sized_range_input A e es s 0
  | .iterator .bidirectional es, s => by
    simp only [hash_append_sized_range]
    exact recording_snd_hash_append_sized_range_input A e es s 0

theorem recording_snd_hash_append_sized_range_input (A : HashAlgorithm H R) (e : Endian) :
    ∀ (es : List Value) (s : H × List (List byte_type)) (m : Int),
      (hash_append_sized_range_input (recording A) e s m es).2
        = s.2 ++ (hash_append_sized_range_input (recording A) e (s.1, []) m es).2
  | [], s, m => by simp [hash_append_sized_range_input, recording_size_snd]
  | x :: rest, s, m => by
    simp only [hash_append_sized_range_input]
    rw [recording_snd_hash_append_sized_range_input A e rest (hash_append (recording A) e s x),
      recording_snd_hash_append_sized_range_input A e rest
        (hash_append (recording A) e (s.1, []) x),
      recording_snd_hash_append A e x s, recording_fst_hash_append,
      recording_fst_hash_append, List.append_assoc]

theorem recording_snd_hash_append_unordered_range_ (A : HashAlgorithm H R) (e : Endian) :
    ∀ (es : List Value) (s : H × List (List byte_type)) (w : Nat) (m : Int),
      (hash_append_unordered_range_ (recording A) e s w m es).2
        = s.2 ++ (hash_append_unordered_range_ (recording A) e (s.1, []) w m es).2
  | [], s, w, m => by
    simp [hash_append_unordered_range_, recording_size_snd, recording_uint64_snd]
  | x :: rest, s, w, m => by
    simp only [hash_append_unordered_range_]
    have h1 := recording_fst_hash_append A e x ((recording A).copy s)
    have h2 := recording_fst_hash_append A e x ((recording A).copy (s.1, []))
    simp only [recording] at h1 h2 ⊢
    rw [h1, h2]
    exact recording_snd_hash_append_unordered_range_ A e rest s _ _

theorem recording_snd_hash_append_tuple (A : HashAlgorithm H R) (e : Endian) :
    ∀ (es : List Value) (s : H × List (List byte_type)),
      (hash_append_tuple (recording A) e s es).2
        = s.2 ++ (hash_append_tuple (recording A) e (s.1, []) es).2
  | [], s => by simp [hash_append_tuple]
  | x :: rest, s => by
    simp only [hash_append_tuple]
    rw [recording_snd_hash_append_tuple A e rest (hash_append (recording A) e s x),
      recording_snd_hash_append_tuple A e rest (hash_append (recording A) e (s.1, []) x),
      recording_snd_hash_append A e x s, recording_fst_hash_append,
      recording_fst_hash_append, List.append_assoc]

end


theorem recording_hash_append (A : HashAlgorithm H R) (e : Endian) (h : H)
    (log : List (List byte_type)) (v : Value) :
    hash_append (recording A) e (h, log) v
      = (hash_append A e h v, log ++ update_calls A e h v) := by
  apply Prod.ext
  · exact recording_fst_hash_append A e v (h, log)
  · exact recording_snd_hash_append A e v (h, log)

theorem recording_foldl (A : HashAlgorithm H R) (e : Endian) (es : List Value) (h : H)
    (log : List (List byte_type)) :
    es.foldl (hash_append (recording A) e) (h, log)
      = (es.foldl (hash_append A e) h, log ++ update_calls_seq A e h es) := by
  induction es generalizing h log with
  | nil => simp [update_calls_seq]
  | cons x rest ih =>
    simp only [List.foldl_cons, recording_hash_append, ih, update_calls_seq, List.append_assoc]

theorem static_cast_size_type_natCast (A : HashAlgorithm H R) (n : Nat) :
    static_cast_size_type A (n : Int) = n % 2 ^ A.size_type_bits := by
  unfold static_cast_size_type
  have : ((n : Int) % (2 : Int) ^ A.size_type_bits) = ((n % 2 ^ A.size_type_bits : Nat) : Int) := by
    push_cast
    rfl
  rw [this, Int.toNat_ofNat]

theorem static_cast_size_type_lt (A : HashAlgorithm H R) (v : Int) :
    static_cast_size_type A v < 2 ^ A.size_type_bits := by
  unfold static_cast_size_type
  have hpos : (0 : Int) < (2 : Int) ^ A.size_type_bits := by positivity
  have h1 := Int.emod_lt_of_pos v hpos
  have h0 := Int.emod_nonneg v (ne_of_gt hpos)
  have : ((v % (2 : Int) ^ A.size_type_bits).toNat : Int)
      < ((2 ^ A.size_type_bits : Nat) : Int) := by
    rw [Int.toNat_of_nonneg h0]
    push_cast
    exact h1
  exact_mod_cast this

theorem static_cast_size_type_spec (A : HashAlgorithm H R) (v : Int) :
    (static_cast_size_type A v : Int) = v % (2 : Int) ^ A.size_type_bits := by
  unfold static_cast_size_type
  have hpos : (0 : Int) < (2 : Int) ^ A.size_type_bits := by positivity
  exact Int.toNat_of_nonneg (Int.emod_nonneg v (ne_of_gt hpos))

theorem hash_append_sized_range_iterator (A : HashAlgorithm H R) (e : Endian) (h : H)
    (cat : iterator_category) (es : List Value) :
    hash_append_sized_range A e h (.iterator cat es)
      = hash_append_size A e (es.foldl (hash_append A e) h) es.length := by
  cases cat <;>
    simp only [hash_append_sized_range, hash_append_sized_range_input_eq,
      hash_append_range__eq_foldl, zero_add]

theorem object_bytes_zero (e : Endian) (n : Nat) :
    object_bytes e n 0 = List.replicate n (0 : byte_type) := by
  have h : ∀ n, le_bytes n 0 = List.replicate n (0 : byte_type) := by
    intro n
    induction n with
    | zero => rfl
    | succ n ih => simp only [le_bytes, Nat.zero_div, ih, List.replicate_succ]; rfl
  cases e <;> simp [object_bytes, h]


/-- C1 (order independence of the unordered-range rule): for every accumulator state `h`,
every element list `l` and every permutation `l'` of `l`, running
`detail::hash_append_unordered_range_` on `l'` from `h` leaves the accumulator in the same
state as running it on `l` from `h`; the same holds for `hash_append` on the two unordered
containers. -/
theorem unordered_range_order_independent (A : HashAlgorithm H R) (e : Endian) (h : H)
    (l l' : List Value) (hp : l'.Perm l) :
    hash_append_unordered_range_ A e h 0 0 l' = hash_append_unordered_range_ A e h 0 0 l
      ∧ hash_append A e h (.unordered_range l') = hash_append A e h (.unordered_range l) := by
  have key : hash_append_unordered_range_ A e h 0 0 l'
      = hash_append_unordered_range_ A e h 0 0 l := by
    rw [hash_append_unordered_range__eq, hash_append_unordered_range__eq,
      (hp.map (element_digest A e h)).sum_eq, hp.length_eq]
  exact ⟨key, by simp only [hash_append]; exact key⟩

/-- Witness of C1 on the sample accumulator: a two-element unordered range in both orders. -/
theorem unordered_range_order_independent_witness :
    [Value.contiguously_hashable [2], Value.contiguously_hashable [1]].Perm
        [Value.contiguously_hashable [1], Value.contiguously_hashable [2]]
      ∧ (hash_append_unordered_range_ sample_hash .little 7 0 0
            [Value.contiguously_hashable [2], Value.contiguously_hashable [1]]
          = hash_append_unordered_range_ sample_hash .little 7 0 0
            [Value.contiguously_hashable [1], Value.contiguously_hashable [2]]
        ∧ hash_append sample_hash .little 7
            (.unordered_range [Value.contiguously_hashable [2], Value.contiguously_hashable [1]])
          = hash_append sample_hash .little 7
            (.unordered_range
              [Value.contiguously_hashable [1], Value.contiguously_hashable [2]])) :=
  ⟨List.Perm.swap _ _ _,
    unordered_range_order_independent sample_hash .little 7 _ _ (List.Perm.swap _ _ _)⟩

/-- C2 (unordered-range reference, clone isolation): from every state `h0` and for every
element list `l`, the unordered-range rule leaves `h0` with exactly two `update` calls
appended, in this order: the 8 bytes of `w`, the sum modulo `2 ^ 64` over the elements `x` of
`get_integral_result<std::uint64_t>` of the result of `hash_append` run on a copy of `h0`
itself, then the `size_type` bytes of the element count. -/
theorem unordered_range_reference (A : HashAlgorithm H R) (e : Endian) (h0 : H)
    (l : List Value) :
    hash_append A e h0 (.unordered_range l)
        = hash_append_size A e
            (hash_append A e h0 (.contiguously_hashable (object_bytes e 8
              ((l.map fun x =>
                A.get_integral_result (A.result (hash_append A e (A.copy h0) x)) % 2 ^ 64).sum
                % 2 ^ 64))))
            l.length
      ∧ hash_append A e h0 (.unordered_range l)
        = A.update
            (A.update h0 (object_bytes e 8
              ((l.map fun x =>
                A.get_integral_result (A.result (hash_append A e (A.copy h0) x)) % 2 ^ 64).sum
                % 2 ^ 64)))
            (object_bytes e A.size_type_bytes (l.length % 2 ^ A.size_type_bits))
      ∧ update_calls A e h0 (.unordered_range l)
        = [object_bytes e 8
              ((l.map fun x =>
                A.get_integral_result (A.result (hash_append A e (A.copy h0) x)) % 2 ^ 64).sum
                % 2 ^ 64),
            object_bytes e A.size_type_bytes (l.length % 2 ^ A.size_type_bits)] := by
  have hA : ∀ {H' : Type} (B : HashAlgorithm H' R) (s : H'),
      hash_append B e s (.unordered_range l)
        = hash_append_size B e (hash_append_uint64 B e s
            ((l.map (element_digest B e s)).sum % 2 ^ 64)) l.length := by
    intro H' B s
    simp only [hash_append, hash_append_unordered_range__eq, Nat.zero_add, zero_add]
  have hd : ∀ s : H × List (List byte_type),
      l.map (element_digest (recording A) e s) = l.map (element_digest A e s.1) := by
    intro s
    apply List.map_congr_left
    intro x _
    have := recording_fst_hash_append A e x ((recording A).copy s)
    simp only [element_digest, recording] at this ⊢
    rw [this]
  refine ⟨?_, ?_, ?_⟩
  · rw [hA A h0]; rfl
  · rw [hA A h0]
    simp only [hash_append_size, hash_append_uint64, do_hash_append_contiguously_hashable,
      hash_append_range_byte_pointer, static_cast_size_type_natCast]
    rfl
  · unfold update_calls
    rw [hA (recording A) (h0, []), recording_size_snd, recording_uint64_snd, hd,
      static_cast_size_type_natCast]
    rfl

/-- C3 (sized-range rule): for every element list `es`, `hash_append_sized_range` dispatches
`hash_append` on each element in iteration order and then `hash_append_size` on the number of
elements, whatever the iterator category; the counting loop of the `input_iterator_tag`
overload and the `last - first` body of the `random_access_iterator_tag` overload leave the
same state; and over pointers to contiguously hashable elements the byte stream fed is the
one fed element by element. -/
theorem sized_range_rule (A : HashAlgorithm H R) (e : Endian) (h : H)
    (cat : iterator_category) (es : List Value) (bss : List (List byte_type)) :
    hash_append_sized_range A e h (.iterator cat es)
        = hash_append_size A e (es.foldl (hash_append A e) h) es.length
      ∧ hash_append A e h (.range (.iterator cat es))
        = hash_append_size A e (es.foldl (hash_append A e) h) es.length
      ∧ hash_append_sized_range_input A e h 0 es
        = hash_append_size A e (hash_append_range A e h (.iterator .random_access es)) es.length
      ∧ hash_append_sized_range A e h (.iterator .input es)
        = hash_append_sized_range A e h (.iterator .random_access es)
      ∧ update_calls A e h (.range (.iterator cat es))
        = update_calls_seq A e h es
          ++ [object_bytes e A.size_type_bytes (es.length % 2 ^ A.size_type_bits)]
      ∧ fed_bytes A e h (.range (.leaf_pointer bss))
        = fed_bytes A e h (.range (.iterator cat (bss.map .contiguously_hashable))) := by
  have hcalls : ∀ (c : iterator_category) (xs : List Value),
      update_calls A e h (.range (.iterator c xs))
        = update_calls_seq A e h xs
          ++ [object_bytes e A.size_type_bytes (xs.length % 2 ^ A.size_type_bits)] := by
    intro c xs
    unfold update_calls
    simp only [hash_append, hash_append_sized_range_iterator, recording_size_snd,
      recording_foldl,
      List.nil_append, static_cast_size_type_natCast]
  have hleaf : ∀ (s : H) (bs : List (List byte_type)),
      (update_calls_seq A e s (bs.map .contiguously_hashable)).flatten = bs.flatten := by
    intro s bs
    induction bs generalizing s with
    | nil => rfl
    | cons b rest ih =>
      simp only [List.map_cons, update_calls_seq, List.flatten_append, ih, List.flatten_cons]
      congr 1
      simp [update_calls, hash_append, do_hash_append_contiguously_hashable,
        hash_append_range_byte_pointer, recording]
  refine ⟨hash_append_sized_range_iterator A e h cat es, ?_, ?_, ?_, hcalls cat es, ?_⟩
  · simp only [hash_append]; exact hash_append_sized_range_iterator A e h cat es
  · simp only [hash_append_sized_range_input_eq, hash_append_range,
      hash_append_range__eq_foldl, zero_add]
  · rw [hash_append_sized_range_iterator, hash_append_sized_range_iterator]
  · unfold fed_bytes
    rw [hcalls, List.flatten_append, hleaf, List.length_map]
    simp only [update_calls, hash_append, hash_append_sized_range, recording_size_snd,
      static_cast_size_type_natCast]
    simp [hash_append_range_leaf_pointer, recording]

/-- C5 (leaf rule): for every value of a contiguously hashable type with object representation
`bytes`, `hash_append` is one `update` call on exactly those `sizeof(T)` bytes and nothing
else, no length before or after; the same holds when the contiguously hashable type is an
array, taken by the C array overload over pointers to its contiguously hashable elements. -/
theorem leaf_rule (A : HashAlgorithm H R) (e : Endian) (h : H) (bytes : List byte_type)
    (elems : List (List byte_type)) :
    hash_append A e h (.contiguously_hashable bytes) = A.update h bytes
      ∧ update_calls A e h (.contiguously_hashable bytes) = [bytes]
      ∧ fed_bytes A e h (.contiguously_hashable bytes) = bytes
      ∧ hash_append A e h (.c_array (.leaf_pointer elems)) = A.update h elems.flatten
      ∧ update_calls A e h (.c_array (.leaf_pointer elems)) = [elems.flatten]
      ∧ hash_append A e h (.c_array (.byte_pointer bytes)) = A.update h bytes
      ∧ update_calls A e h (.c_array (.byte_pointer bytes)) = [bytes] := by
  refine ⟨rfl, rfl, ?_, ?_, ?_, ?_, ?_⟩
  · simp [fed_bytes, update_calls, hash_append, do_hash_append_contiguously_hashable,
      hash_append_range_byte_pointer, recording]
  · simp only [hash_append, hash_append_range, hash_append_range_leaf_pointer]
  · simp only [update_calls, hash_append, hash_append_range, hash_append_range_leaf_pointer]
    rfl
  · simp only [hash_append, hash_append_range, hash_append_range_byte_pointer]
  · simp only [update_calls, hash_append, hash_append_range, hash_append_range_byte_pointer]
    rfl

/-- C10 (tuple rule): for every tuple-like value with sub-values `xs`, `hash_append`
dispatches `hash_append` on each sub-value in index order and feeds nothing else, no count
included; for the empty tuple the accumulator is unchanged and no `update` call is made. -/
theorem tuple_rule (A : HashAlgorithm H R) (e : Endian) (h : H) (xs : List Value) :
    hash_append A e h (.tuple_like xs) = xs.foldl (hash_append A e) h
      ∧ update_calls A e h (.tuple_like xs) = update_calls_seq A e h xs
      ∧ hash_append A e h (.tuple_like []) = h
      ∧ update_calls A e h (.tuple_like []) = [] := by
  refine ⟨?_, ?_, rfl, rfl⟩
  · simp only [hash_append, hash_append_tuple_eq_foldl]
  · unfold update_calls
    simp only [hash_append, hash_append_tuple_eq_foldl, recording_foldl, List.nil_append]


theorem flatten_length_uniform (bss : List (List byte_type)) (n : Nat)
    (hn : ∀ b ∈ bss, b.length = n) : bss.flatten.length = bss.length * n := by
  induction bss with
  | nil => simp
  | cons b rest ih =>
    have hb : b.length = n := hn b (List.mem_cons_self _ _)
    have hr : ∀ c ∈ rest, c.length = n := fun c hc => hn c (List.mem_cons_of_mem _ hc)
    simp only [List.flatten_cons, List.length_append, List.length_cons, ih hr, hb]
    ring

theorem update_calls_seq_leaves (A : HashAlgorithm H R) (e : Endian) (h : H)
    (bss : List (List byte_type)) :
    update_calls_seq A e h (bss.map .contiguously_hashable) = bss := by
  induction bss generalizing h with
  | nil => rfl
  | cons b rest ih =>
    simp only [List.map_cons, update_calls_seq, ih]
    rfl

theorem recording_foldl_leaves (A : HashAlgorithm H R) (bss : List (List byte_type))
    (s : H × List (List byte_type)) :
    (bss.foldl (do_hash_append_contiguously_hashable (recording A)) s).2 = s.2 ++ bss := by
  induction bss generalizing s with
  | nil => simp
  | cons b rest ih =>
    simp only [List.foldl_cons]
    rw [ih]
    simp [do_hash_append_contiguously_hashable, hash_append_range_byte_pointer, recording]

/-- C4 (contiguous collapse): for every contiguous sized range of `n` elements of a
contiguously hashable type of size `sz`, `hash_append` makes one `update` call over the
`n * sz` bytes of the elements and then appends `size(n)`; the bytes it feeds are the bytes
fed by dispatching each element through the leaf rule in order and then appending
`size(n)`. -/
theorem contiguous_collapse (A : HashAlgorithm H R) (e : Endian) (h : H)
    (bss : List (List byte_type)) (sz : Nat) (hsz : ∀ b ∈ bss, b.length = sz) :
    hash_append A e h (.contiguous_range (.leaf_pointer bss))
        = hash_append_size A e (A.update h bss.flatten) bss.length
      ∧ update_calls A e h (.contiguous_range (.leaf_pointer bss))
        = [bss.flatten, object_bytes e A.size_type_bytes (bss.length % 2 ^ A.size_type_bits)]
      ∧ bss.flatten.length = bss.length * sz
      ∧ update_calls A e h
          (.contiguous_range (.iterator .random_access (bss.map .contiguously_hashable)))
        = bss ++ [object_bytes e A.size_type_bytes (bss.length % 2 ^ A.size_type_bits)]
      ∧ fed_bytes A e h (.contiguous_range (.leaf_pointer bss))
        = fed_bytes A e h
            (.contiguous_range (.iterator .random_access (bss.map .contiguously_hashable)))
      ∧ fed_bytes A e h (.contiguous_range (.leaf_pointer bss))
        = ((hash_append_size (recording A) e
              (bss.foldl (do_hash_append_contiguously_hashable (recording A)) (h, []))
              bss.length).2).flatten := by
  have hc1 : update_calls A e h (.contiguous_range (.leaf_pointer bss))
      = [bss.flatten, object_bytes e A.size_type_bytes (bss.length % 2 ^ A.size_type_bits)] := by
    simp only [update_calls, hash_append, recording_size_snd, iterator_range.distance,
      static_cast_size_type_natCast]
    rfl
  have hc2 : update_calls A e h
        (.contiguous_range (.iterator .random_access (bss.map .contiguously_hashable)))
      = bss ++ [object_bytes e A.size_type_bytes (bss.length % 2 ^ A.size_type_bits)] := by
    simp only [update_calls, hash_append, hash_append_range, recording_size_snd,
      iterator_range.distance, static_cast_size_type_natCast, hash_append_range__eq_foldl,
      recording_foldl, update_calls_seq_leaves, List.length_map, List.nil_append]
  refine ⟨rfl, hc1, flatten_length_uniform bss sz hsz, hc2, ?_, ?_⟩
  · simp [fed_bytes, hc1, hc2]
  · simp only [fed_bytes, hc1, recording_size_snd, recording_foldl_leaves,
      static_cast_size_type_natCast]
    simp


/-- Witness of C4 on the sample accumulator: a contiguous range of two 4-byte elements. -/
theorem contiguous_collapse_witness :
    (∀ b ∈ [[1, 0, 0, 0], [2, 0, 0, 0]], (b : List byte_type).length = 4)
      ∧ update_calls sample_hash .little 0
          (.contiguous_range (.leaf_pointer [[1, 0, 0, 0], [2, 0, 0, 0]]))
        = [[1, 0, 0, 0, 2, 0, 0, 0], [2, 0, 0, 0]]
      ∧ fed_bytes sample_hash .little 0
          (.contiguous_range (.leaf_pointer [[1, 0, 0, 0], [2, 0, 0, 0]]))
        = fed_bytes sample_hash .little 0
            (.contiguous_range (.iterator .random_access
              ([[1, 0, 0, 0], [2, 0, 0, 0]].map .contiguously_hashable))) :=
  ⟨by decide,
    (contiguous_collapse sample_hash .little 0 [[1, 0, 0, 0], [2, 0, 0, 0]] 4 (by decide)).2.1,
    (contiguous_collapse sample_hash .little 0 [[1, 0, 0, 0], [2, 0, 0, 0]] 4
      (by decide)).2.2.2.2.1⟩

/-- C6, the code at the failing input: for the 16-byte `long double` of x86-64, negative zero
and positive zero both compare equal to zero and are both fed as ten zero value bytes followed
by the six padding bytes of the local copy, which its initialisation does not write; with
different stale padding the two feed different bytes and leave different states. -/
theorem floating_point_zero_padding :
    floating_point_eq_zero 0 = true
      ∧ fed_bytes sample_hash .little 0
          (.floating_point x87_long_double true 0 [170, 170, 170, 170, 170, 170])
        = [0, 0, 0, 0, 0, 0, 0, 0, 0, 0, 170, 170, 170, 170, 170, 170]
      ∧ fed_bytes sample_hash .little 0
          (.floating_point x87_long_double false 0 [85, 85, 85, 85, 85, 85])
        = [0, 0, 0, 0, 0, 0, 0, 0, 0, 0, 85, 85, 85, 85, 85, 85]
      ∧ fed_bytes sample_hash .little 0
          (.floating_point x87_long_double true 0 [170, 170, 170, 170, 170, 170])
        ≠ fed_bytes sample_hash .little 0
          (.floating_point x87_long_double false 0 [85, 85, 85, 85, 85, 85])
      ∧ hash_append sample_hash .little 0
          (.floating_point x87_long_double true 0 [170, 170, 170, 170, 170, 170])
        ≠ hash_append sample_hash .little 0
          (.floating_point x87_long_double false 0 [85, 85, 85, 85, 85, 85]) := by
  decide

/-- C7 (size appending): for every count `N`, `hash_append_size( h, N )` is `hash_append` of
`N` converted to `size_type`, a contiguously hashable value: one `update` call on exactly
`sizeof(size_type)` bytes, the object representation of `N` modulo `2 ^ w`; the bytes depend
on the value of `N` only, not on the width or signedness of the integer type holding it. -/
theorem hash_append_size_rule (A : HashAlgorithm H R) (e : Endian) (h : H) (N : Int) :
    hash_append_size A e h N
        = hash_append A e h
            (.contiguously_hashable
              (object_bytes e A.size_type_bytes (static_cast_size_type A N)))
      ∧ hash_append_size A e h N
        = A.update h (object_bytes e A.size_type_bytes (static_cast_size_type A N))
      ∧ (static_cast_size_type A N : Int) = N % (2 : Int) ^ A.size_type_bits
      ∧ static_cast_size_type A N < 2 ^ A.size_type_bits
      ∧ (object_bytes e A.size_type_bytes (static_cast_size_type A N)).length
        = A.size_type_bytes
      ∧ (hash_append_size (recording A) e (h, []) N).2
        = [object_bytes e A.size_type_bytes (static_cast_size_type A N)]
      ∧ ∀ (t1 t2 : integer_type) (raw1 raw2 : Nat), t1.value raw1 = N → t2.value raw2 = N →
          hash_append_size A e h (t1.value raw1) = hash_append_size A e h (t2.value raw2) := by
  refine ⟨rfl, rfl, static_cast_size_type_spec A N, static_cast_size_type_lt A N,
    object_bytes_length _ _ _, rfl, ?_⟩
  intro t1 t2 raw1 raw2 h1 h2
  rw [h1, h2]

/-- Witness of C7 on the sample accumulator: the count `-1` held in a signed 32-bit and in a
signed 64-bit integer is fed as the four bytes `ff`. -/
theorem hash_append_size_rule_witness :
    (integer_type.mk true 32).value 4294967295 = -1
      ∧ (integer_type.mk true 64).value 18446744073709551615 = -1
      ∧ hash_append_size sample_hash .little 0 ((integer_type.mk true 32).value 4294967295)
        = hash_append_size sample_hash .little 0
            ((integer_type.mk true 64).value 18446744073709551615)
      ∧ (hash_append_size (recording sample_hash) .little (0, []) (-1)).2
        = [[255, 255, 255, 255]] :=
  ⟨by decide, by decide,
    (hash_append_size_rule sample_hash .little 0 (-1)).2.2.2.2.2.2
      (integer_type.mk true 32) (integer_type.mk true 64) 4294967295 18446744073709551615
      (by decide) (by decide),
    by decide⟩


theorem sized_range_ends_with_size (A : HashAlgorithm H R) (e : Endian) (h : H) (v : Value)
    (n : Nat) (hc : sized_range_count v = some n) :
    ∃ h', hash_append A e h v = hash_append_size A e h' n := by
  cases v with
  | contiguous_range r =>
    simp only [sized_range_count, Option.some.injEq] at hc
    subst hc
    exact ⟨hash_append_range A e h r, by simp only [hash_append]⟩
  | range r =>
    simp only [sized_range_count, Option.some.injEq] at hc
    subst hc
    cases r with
    | byte_pointer bs =>
      exact ⟨hash_append_range_byte_pointer A h bs, by
        simp only [hash_append, hash_append_sized_range, iterator_range.distance]⟩
    | leaf_pointer es =>
      exact ⟨hash_append_range_leaf_pointer A h es, by
        simp only [hash_append, hash_append_sized_range, iterator_range.distance]⟩
    | iterator cat es =>
      exact ⟨es.foldl (hash_append A e) h, by
        simp only [hash_append, hash_append_sized_range_iterator, iterator_range.distance]⟩
  | contiguously_hashable _ => simp [sized_range_count] at hc
  | floating_point _ _ _ _ => simp [sized_range_count] at hc
  | c_array _ => simp [sized_range_count] at hc
  | range_tuple _ => simp [sized_range_count] at hc
  | unordered_range _ => simp [sized_range_count] at hc
  | tuple_like _ => simp [sized_range_count] at hc

theorem fed_bytes_sized_range (A : HashAlgorithm H R) (e : Endian) (h : H) (v : Value)
    (n : Nat) (hc : sized_range_count v = some n) :
    ∃ pre, fed_bytes A e h v
      = pre ++ object_bytes e A.size_type_bytes (n % 2 ^ A.size_type_bits) := by
  obtain ⟨s, hs⟩ := sized_range_ends_with_size (recording A) e (h, []) v n hc
  refine ⟨s.2.flatten, ?_⟩
  unfold fed_bytes update_calls
  rw [hs, recording_size_snd, static_cast_size_type_natCast]
  simp

theorem size_bytes_injective (A : HashAlgorithm H R) (e : Endian) (n1 n2 : Nat)
    (hb : object_bytes e A.size_type_bytes (n1 % 2 ^ A.size_type_bits)
      = object_bytes e A.size_type_bytes (n2 % 2 ^ A.size_type_bits)) :
    n1 % 2 ^ A.size_type_bits = n2 % 2 ^ A.size_type_bits := by
  have hpow : 2 ^ A.size_type_bits = 256 ^ A.size_type_bytes := by
    unfold HashAlgorithm.size_type_bits
    rw [pow_mul]
    norm_num
  have hpos : 0 < 256 ^ A.size_type_bytes := by positivity
  rw [hpow] at hb ⊢
  exact object_bytes_injective e A.size_type_bytes _ _ (Nat.mod_lt _ hpos) (Nat.mod_lt _ hpos) hb

theorem sized_range_not_suffix (A : HashAlgorithm H R) (e : Endian) (h : H) (v1 v2 : Value)
    (n1 n2 : Nat) (c1 : sized_range_count v1 = some n1) (c2 : sized_range_count v2 = some n2)
    (hne : n1 % 2 ^ A.size_type_bits ≠ n2 % 2 ^ A.size_type_bits) :
    ¬ List.IsSuffix (fed_bytes A e h v1) (fed_bytes A e h v2) := by
  obtain ⟨p1, hp1⟩ := fed_bytes_sized_range A e h v1 n1 c1
  obtain ⟨p2, hp2⟩ := fed_bytes_sized_range A e h v2 n2 c2
  rintro ⟨t, ht⟩
  rw [hp1, hp2, ← List.append_assoc] at ht
  have := List.append_inj_right' ht (by rw [object_bytes_length, object_bytes_length])
  exact hne (size_bytes_injective A e n1 n2 this)

theorem hash_append_range__replicate_empty_tuple (A : HashAlgorithm H R) (e : Endian) (h : H)
    (n : Nat) : hash_append_range_ A e h (List.replicate n (.tuple_like [])) = h := by
  induction n with
  | zero => simp [hash_append_range_]
  | succ n ih =>
    simp only [List.replicate_succ, hash_append_range_, hash_append, hash_append_tuple, ih]

theorem fed_bytes_replicate_empty_tuple (A : HashAlgorithm H R) (e : Endian) (h : H) (n : Nat) :
    fed_bytes A e h (.contiguous_range (.iterator .random_access
        (List.replicate n (.tuple_like []))))
      = object_bytes e A.size_type_bytes (n % 2 ^ A.size_type_bits) := by
  simp only [fed_bytes, update_calls, hash_append, hash_append_range,
    hash_append_range__replicate_empty_tuple, iterator_range.distance, List.length_replicate,
    recording_size_snd, static_cast_size_type_natCast, List.nil_append, List.flatten_cons,
    List.flatten_nil, List.append_nil]

/-- C8, counterexample: under a 32-bit `size_type`, a contiguous range of `2 ^ 32` empty
tuples and the empty range of the same type have different element counts and feed the same
byte sequence, the four zero bytes of `size(0)`. -/
theorem length_distinguishability_counterexample :
    sized_range_count (.contiguous_range (.iterator .random_access
        (List.replicate 4294967296 (.tuple_like [])))) = some 4294967296
      ∧ sized_range_count (.contiguous_range (.iterator .random_access [])) = some 0
      ∧ fed_bytes sample_hash .little 0 (.contiguous_range (.iterator .random_access
          (List.replicate 4294967296 (.tuple_like [])))) = [0, 0, 0, 0]
      ∧ fed_bytes sample_hash .little 0 (.contiguous_range (.iterator .random_access []))
        = [0, 0, 0, 0] := by
  refine ⟨?_, rfl, ?_, by decide⟩
  · simp only [sized_range_count, iterator_range.distance, List.length_replicate]
  · rw [fed_bytes_replicate_empty_tuple]
    decide

/-- C8, amended (length distinguishability): two values of a sized-range type whose element
counts differ modulo `2 ^ w`, `w` the bit width of `size_type`, feed different byte sequences,
whatever bytes their elements contribute. -/
theorem length_distinguishability (A : HashAlgorithm H R) (e : Endian) (h : H) (v1 v2 : Value)
    (n1 n2 : Nat) (c1 : sized_range_count v1 = some n1) (c2 : sized_range_count v2 = some n2)
    (hne : n1 % 2 ^ A.size_type_bits ≠ n2 % 2 ^ A.size_type_bits) :
    fed_bytes A e h v1 ≠ fed_bytes A e h v2 := by
  intro heq
  exact sized_range_not_suffix A e h v1 v2 n1 n2 c1 c2 hne (heq ▸ List.suffix_refl _)

/-- Witness of C8 (amended) on the sample accumulator: ranges of two and of one empty
tuple. -/
theorem length_distinguishability_witness :
    sized_range_count (.range (.iterator .forward [.tuple_like [], .tuple_like []])) = some 2
      ∧ sized_range_count (.range (.iterator .forward [.tuple_like []])) = some 1
      ∧ 2 % 2 ^ sample_hash.size_type_bits ≠ 1 % 2 ^ sample_hash.size_type_bits
      ∧ fed_bytes sample_hash .little 0
          (.range (.iterator .forward [.tuple_like [], .tuple_like []]))
        ≠ fed_bytes sample_hash .little 0 (.range (.iterator .forward [.tuple_like []])) :=
  ⟨rfl, rfl, by decide,
    length_distinguishability sample_hash .little 0
      (.range (.iterator .forward [.tuple_like [], .tuple_like []]))
      (.range (.iterator .forward [.tuple_like []])) 2 1 rfl rfl (by decide)⟩

/-- C9, counterexample: under a 32-bit `size_type`, the complete stream fed for the empty
contiguous range of one-byte elements, `size(0)`, is a prefix of the stream fed for the longer
range of four zero elements. -/
theorem shorter_stream_leads_longer_counterexample :
    sized_range_count (.contiguous_range (.leaf_pointer [])) = some 0
      ∧ sized_range_count (.contiguous_range (.leaf_pointer [[0], [0], [0], [0]])) = some 4
      ∧ fed_bytes sample_hash .little 0 (.contiguous_range (.leaf_pointer [])) = [0, 0, 0, 0]
      ∧ fed_bytes sample_hash .little 0 (.contiguous_range (.leaf_pointer [[0], [0], [0], [0]]))
        = [0, 0, 0, 0, 4, 0, 0, 0]
      ∧ List.IsPrefix (fed_bytes sample_hash .little 0 (.contiguous_range (.leaf_pointer [])))
          (fed_bytes sample_hash .little 0
            (.contiguous_range (.leaf_pointer [[0], [0], [0], [0]]))) :=
  ⟨rfl, rfl, by decide, by decide, ⟨[4, 0, 0, 0], by decide⟩⟩

/-- C9, amended (suffix freedom of ranges): for two values of a sized-range type whose
element counts differ modulo `2 ^ w`, the complete byte stream fed for one is not a suffix of
the byte stream fed for the other, so the two streams differ; it may be a prefix of it. -/
theorem suffix_freedom (A : HashAlgorithm H R) (e : Endian) (h : H) (v1 v2 : Value)
    (n1 n2 : Nat) (c1 : sized_range_count v1 = some n1) (c2 : sized_range_count v2 = some n2)
    (hne : n1 % 2 ^ A.size_type_bits ≠ n2 % 2 ^ A.size_type_bits) :
    ¬ List.IsSuffix (fed_bytes A e h v1) (fed_bytes A e h v2)
      ∧ ¬ List.IsSuffix (fed_bytes A e h v2) (fed_bytes A e h v1) :=
  ⟨sized_range_not_suffix A e h v1 v2 n1 n2 c1 c2 hne,
    sized_range_not_suffix A e h v2 v1 n2 n1 c2 c1 (Ne.symm hne)⟩

/-- Witness of C9 (amended) on the sample accumulator: the empty range and the range of four
zero bytes. -/
theorem suffix_freedom_witness :
    sized_range_count (.contiguous_range (.leaf_pointer [])) = some 0
      ∧ sized_range_count (.contiguous_range (.leaf_pointer [[0], [0], [0], [0]])) = some 4
      ∧ 0 % 2 ^ sample_hash.size_type_bits ≠ 4 % 2 ^ sample_hash.size_type_bits
      ∧ ¬ List.IsSuffix (fed_bytes sample_hash .little 0 (.contiguous_range (.leaf_pointer [])))
            (fed_bytes sample_hash .little 0
              (.contiguous_range (.leaf_pointer [[0], [0], [0], [0]]))) :=
  ⟨rfl, rfl, by decide,
    (suffix_freedom sample_hash .little 0 (.contiguous_range (.leaf_pointer []))
      (.contiguous_range (.leaf_pointer [[0], [0], [0], [0]])) 0 4 rfl rfl (by decide)).1⟩



theorem flatten_map_singleton {α β : Type} (f : α → β) (l : List α) :
    (l.map fun x => [f x]).flatten = l.map f := by
  induction l with
  | nil => rfl
  | cons x rest ih => simp [ih]

theorem update_calls_seq_map (A : HashAlgorithm H R) (e : Endian) {α : Type} (f : α → Value)
    (g : α → List (List byte_type)) (hfg : ∀ (h : H) (a : α), update_calls A e h (f a) = g a)
    (l : List α) (h : H) :
    update_calls_seq A e h (l.map f) = (l.map g).flatten := by
  induction l generalizing h with
  | nil => rfl
  | cons a rest ih =>
    simp only [List.map_cons, update_calls_seq, ih, hfg, List.flatten_cons]

theorem range_update_calls_iterator (A : HashAlgorithm H R) (e : Endian) (h : H)
    (cat : iterator_category) (es : List Value) :
    range_update_calls A e h (.iterator cat es) = update_calls_seq A e h es := by
  simp only [range_update_calls, hash_append_range, hash_append_range__eq_foldl,
    recording_foldl, List.nil_append]

theorem range_update_calls_leaf_pointer (A : HashAlgorithm H R) (e : Endian) (h : H)
    (bss : List (List byte_type)) :
    range_update_calls A e h (.leaf_pointer bss) = [bss.flatten] := rfl

theorem range_update_calls_byte_pointer (A : HashAlgorithm H R) (e : Endian) (h : H)
    (bs : List byte_type) :
    range_update_calls A e h (.byte_pointer bs) = [bs] := rfl

theorem update_calls_c_array (A : HashAlgorithm H R) (e : Endian) (h : H)
    (r : iterator_range Value) :
    update_calls A e h (.c_array r) = range_update_calls A e h r := by
  simp only [update_calls, range_update_calls, hash_append]

theorem update_calls_range_tuple (A : HashAlgorithm H R) (e : Endian) (h : H)
    (r : iterator_range Value) :
    update_calls A e h (.range_tuple r) = range_update_calls A e h r := by
  simp only [update_calls, range_update_calls, hash_append]

theorem update_calls_contiguous_range (A : HashAlgorithm H R) (e : Endian) (h : H)
    (r : iterator_range Value) :
    update_calls A e h (.contiguous_range r)
      = range_update_calls A e h r
        ++ [object_bytes e A.size_type_bytes (r.distance % 2 ^ A.size_type_bits)] := by
  simp only [update_calls, range_update_calls, hash_append, recording_size_snd,
    static_cast_size_type_natCast]

theorem update_calls_range_iterator (A : HashAlgorithm H R) (e : Endian) (h : H)
    (cat : iterator_category) (es : List Value) :
    update_calls A e h (.range (.iterator cat es))
      = update_calls_seq A e h es
        ++ [object_bytes e A.size_type_bytes (es.length % 2 ^ A.size_type_bits)] := by
  simp only [update_calls, hash_append, hash_append_sized_range_iterator, recording_size_snd,
    recording_foldl, List.nil_append, static_cast_size_type_natCast]

theorem update_calls_tuple_like (A : HashAlgorithm H R) (e : Endian) (h : H)
    (es : List Value) :
    update_calls A e h (.tuple_like es) = update_calls_seq A e h es := by
  simp only [update_calls, hash_append, hash_append_tuple_eq_foldl, recording_foldl,
    List.nil_append]

theorem update_calls_contiguously_hashable (A : HashAlgorithm H R) (e : Endian) (h : H)
    (bs : List byte_type) :
    update_calls A e h (.contiguously_hashable bs) = [bs] := rfl

theorem update_calls_range_of (A : HashAlgorithm H R) (e : Endian) (h : H)
    (k : sized_range_kind) (es : List Value) :
    update_calls A e h (range_of k es)
      = update_calls_seq A e h es
        ++ [object_bytes e A.size_type_bytes (es.length % 2 ^ A.size_type_bits)] := by
  cases k with
  | contiguous =>
    simp only [range_of, update_calls_contiguous_range, range_update_calls_iterator,
      iterator_range.distance]
  | general cat => simp only [range_of, update_calls_range_iterator]

theorem update_calls_byte_range (A : HashAlgorithm H R) (e : Endian) (h : H)
    (k : byte_range_kind) (bs : List byte_type) :
    (update_calls A e h (byte_range k bs)).flatten
      = bs ++ object_bytes e A.size_type_bytes (bs.length % 2 ^ A.size_type_bits) := by
  cases k with
  | contiguous_bytes =>
    simp only [byte_range, update_calls_contiguous_range, range_update_calls_byte_pointer,
      iterator_range.distance]
    simp
  | contiguous_chars =>
    simp only [byte_range, update_calls_contiguous_range, range_update_calls_leaf_pointer,
      iterator_range.distance, List.length_map]
    rw [flatten_map_singleton (fun b => b) bs]
    simp
  | general cat =>
    simp only [byte_range, update_calls_range_iterator, List.length_map]
    rw [update_calls_seq_map A e (fun b => Value.contiguously_hashable [b]) (fun b => [[b]])
      (fun _ _ => rfl)]
    rw [flatten_map_singleton (fun b => [b]) bs, List.flatten_append,
      flatten_map_singleton (fun b => b) bs]
    simp

theorem fed_bytes_byte_range (A : HashAlgorithm H R) (e : Endian) (h : H)
    (k : byte_range_kind) (bs : List byte_type) :
    fed_bytes A e h (byte_range k bs)
      = bs ++ object_bytes e A.size_type_bytes (bs.length % 2 ^ A.size_type_bits) :=
  update_calls_byte_range A e h k bs

theorem fed_bytes_integer_range (A : HashAlgorithm H R) (e : Endian) (h : H)
    (k : sized_range_kind) (width : Nat) (xs : List Nat) :
    fed_bytes A e h (integer_range e k width xs)
      = (xs.map (object_bytes e width)).flatten
        ++ object_bytes e A.size_type_bytes (xs.length % 2 ^ A.size_type_bits) := by
  cases k with
  | contiguous =>
    simp only [fed_bytes, integer_range, update_calls_contiguous_range,
      range_update_calls_leaf_pointer, iterator_range.distance, List.length_map]
    simp
  | general cat =>
    simp only [fed_bytes, integer_range, update_calls_range_iterator, List.length_map]
    rw [update_calls_seq_map A e (fun x => Value.contiguously_hashable (object_bytes e width x))
      (fun x => [object_bytes e width x]) (fun _ _ => rfl)]
    rw [flatten_map_singleton (object_bytes e width) xs]
    simp

mutual

theorem update_calls_state_free (A : HashAlgorithm H R) (e : Endian) :
    ∀ (v : Value) (h h' : H), v.unordered_free = true →
      update_calls A e h v = update_calls A e h' v
  | .contiguously_hashable _, _, _, _ => rfl
  | .floating_point _ _ _ _, _, _, _ => rfl
  | .c_array r, h, h', hf => by
    rw [update_calls_c_array, update_calls_c_array]
    exact range_update_calls_state_free A e r h h' (by simpa [Value.unordered_free] using hf)
  | .contiguous_range r, h, h', hf => by
    rw [update_calls_contiguous_range, update_calls_contiguous_range,
      range_update_calls_state_free A e r h h' (by simpa [Value.unordered_free] using hf)]
  | .range (.byte_pointer _), _, _, _ => rfl
  | .range (.leaf_pointer _), _, _, _ => rfl
  | .range (.iterator cat es), h, h', hf => by
    rw [update_calls_range_iterator, update_calls_range_iterator,
      update_calls_seq_state_free A e es h h'
        (by simpa [Value.unordered_free, iterator_range_unordered_free] using hf)]
  | .range_tuple r, h, h', hf => by
    rw [update_calls_range_tuple, update_calls_range_tuple]
    exact range_update_calls_state_free A e r h h' (by simpa [Value.unordered_free] using hf)
  | .unordered_range _, _, _, hf => by simp [Value.unordered_free] at hf
  | .tuple_like es, h, h', hf => by
    rw [update_calls_tuple_like, update_calls_tuple_like]
    exact update_calls_seq_state_free A e es h h' (by simpa [Value.unordered_free] using hf)

theorem range_update_calls_state_free (A : HashAlgorithm H R) (e : Endian) :
    ∀ (r : iterator_range Value) (h h' : H), iterator_range_unordered_free r = true →
      range_update_calls A e h r = range_update_calls A e h' r
  | .byte_pointer _, _, _, _ => rfl
  | .leaf_pointer _, _, _, _ => rfl
  | .iterator cat es, h, h', hf => by
    rw [range_update_calls_iterator, range_update_calls_iterator]
    exact update_calls_seq_state_free A e es h h'
      (by simpa [iterator_range_unordered_free] using hf)

theorem update_calls_seq_state_free (A : HashAlgorithm H R) (e : Endian) :
    ∀ (es : List Value) (h h' : H), list_unordered_free es = true →
      update_calls_seq A e h es = update_calls_seq A e h' es
  | [], _, _, _ => rfl
  | x :: rest, h, h', hf => by
    have hf' : x.unordered_free = true ∧ list_unordered_free rest = true := by
      simpa [list_unordered_free] using hf
    simp only [update_calls_seq]
    rw [update_calls_state_free A e x h h' hf'.1,
      update_calls_seq_state_free A e rest (hash_append A e h x) (hash_append A e h' x) hf'.2]

end


/-- C11 (fixed-size array rule): for every C array, `hash_append` leaves the state that
dispatching `hash_append` on each element in index order leaves, with the same `update`
calls and no length appended; when the elements are contiguously hashable (or bytes) the one
`update` over the whole array feeds the bytes that the element-by-element dispatch feeds. -/
theorem c_array_rule (A : HashAlgorithm H R) (e : Endian) (h : H) (cat : iterator_category)
    (es : List Value) (bss : List (List byte_type)) (bs : List byte_type) :
    hash_append A e h (.c_array (.iterator cat es)) = es.foldl (hash_append A e) h
      ∧ update_calls A e h (.c_array (.iterator cat es)) = update_calls_seq A e h es
      ∧ fed_bytes A e h (.c_array (.iterator cat es)) = (update_calls_seq A e h es).flatten
      ∧ fed_bytes A e h (.c_array (.leaf_pointer bss))
        = (update_calls_seq A e h (bss.map .contiguously_hashable)).flatten
      ∧ fed_bytes A e h (.c_array (.leaf_pointer bss)) = bss.flatten
      ∧ fed_bytes A e h (.c_array (.byte_pointer bs))
        = (update_calls_seq A e h (bs.map fun b => .contiguously_hashable [b])).flatten
      ∧ fed_bytes A e h (.c_array (.byte_pointer bs)) = bs := by
  refine ⟨?_, ?_, ?_, ?_, ?_, ?_, ?_⟩
  · simp only [hash_append, hash_append_range, hash_append_range__eq_foldl]
  · rw [update_calls_c_array, range_update_calls_iterator]
  · rw [fed_bytes, update_calls_c_array, range_update_calls_iterator]
  · rw [fed_bytes, update_calls_c_array, range_update_calls_leaf_pointer,
      update_calls_seq_leaves]
    simp
  · rw [fed_bytes, update_calls_c_array, range_update_calls_leaf_pointer]
    simp
  · rw [fed_bytes, update_calls_c_array, range_update_calls_byte_pointer,
      update_calls_seq_map A e (fun b => Value.contiguously_hashable [b]) (fun b => [[b]])
        (fun _ _ => rfl),
      flatten_map_singleton (fun b => [b]) bs, flatten_map_singleton (fun b => b) bs]
    simp
  · rw [fed_bytes, update_calls_c_array, range_update_calls_byte_pointer]
    simp

/-- C12 (range-and-tuple-like types): for a value that is both a range and tuple-like,
`hash_append` iterates the elements in order with no count appended and leaves the state the
tuple rule leaves on the same elements; when its iterators are pointers to contiguously
hashable elements (or bytes) the bytes fed are those the tuple rule feeds. -/
theorem range_tuple_rule (A : HashAlgorithm H R) (e : Endian) (h : H)
    (cat : iterator_category) (es : List Value) (bss : List (List byte_type))
    (bs : List byte_type) :
    hash_append A e h (.range_tuple (.iterator cat es)) = es.foldl (hash_append A e) h
      ∧ hash_append A e h (.range_tuple (.iterator cat es)) = hash_append A e h (.tuple_like es)
      ∧ update_calls A e h (.range_tuple (.iterator cat es))
        = update_calls A e h (.tuple_like es)
      ∧ fed_bytes A e h (.range_tuple (.iterator cat es)) = fed_bytes A e h (.tuple_like es)
      ∧ fed_bytes A e h (.range_tuple (.leaf_pointer bss))
        = fed_bytes A e h (.tuple_like (bss.map .contiguously_hashable))
      ∧ fed_bytes A e h (.range_tuple (.byte_pointer bs))
        = fed_bytes A e h (.tuple_like (bs.map fun b => .contiguously_hashable [b])) := by
  have hc : update_calls A e h (.range_tuple (.iterator cat es))
      = update_calls A e h (.tuple_like es) := by
    rw [update_calls_range_tuple, range_update_calls_iterator, update_calls_tuple_like]
  refine ⟨?_, ?_, hc, ?_, ?_, ?_⟩
  · simp only [hash_append, hash_append_range, hash_append_range__eq_foldl]
  · simp only [hash_append, hash_append_range, hash_append_range__eq_foldl,
      hash_append_tuple_eq_foldl]
  · rw [fed_bytes, fed_bytes, hc]
  · rw [fed_bytes, fed_bytes, update_calls_range_tuple, range_update_calls_leaf_pointer,
      update_calls_tuple_like, update_calls_seq_leaves]
    simp
  · rw [fed_bytes, fed_bytes, update_calls_range_tuple, range_update_calls_byte_pointer,
      update_calls_tuple_like,
      update_calls_seq_map A e (fun b => Value.contiguously_hashable [b]) (fun b => [[b]])
        (fun _ _ => rfl),
      flatten_map_singleton (fun b => [b]) bs, flatten_map_singleton (fun b => b) bs]
    simp

theorem update_calls_pair_of_leaves (A : HashAlgorithm H R) (e : Endian) (h : H)
    (a b : List byte_type) :
    update_calls A e h (.tuple_like [.contiguously_hashable a, .contiguously_hashable b])
      = [a, b] := by
  rw [update_calls_tuple_like]
  rfl

/-- C14 (nested composition): for every sized range of 2-tuples `(a, b)` of `width`-byte
integers, `hash_append` makes the `update` calls leaf(a1), leaf(b1), ..., leaf(an), leaf(bn),
size(n), and so feeds those bytes in that order; for `[(1, 2), (3, 4)]` these are leaf(1),
leaf(2), leaf(3), leaf(4), size(2). -/
theorem nested_composition (A : HashAlgorithm H R) (e : Endian) (h : H)
    (k : sized_range_kind) (width : Nat) (ps : List (Nat × Nat)) :
    update_calls A e h
        (range_of k (ps.map fun p => .tuple_like
          [.contiguously_hashable (object_bytes e width p.1),
            .contiguously_hashable (object_bytes e width p.2)]))
      = (ps.map fun p => [object_bytes e width p.1, object_bytes e width p.2]).flatten
        ++ [object_bytes e A.size_type_bytes (ps.length % 2 ^ A.size_type_bits)]
    ∧ fed_bytes A e h
        (range_of k (ps.map fun p => .tuple_like
          [.contiguously_hashable (object_bytes e width p.1),
            .contiguously_hashable (object_bytes e width p.2)]))
      = (ps.map fun p => object_bytes e width p.1 ++ object_bytes e width p.2).flatten
        ++ object_bytes e A.size_type_bytes (ps.length % 2 ^ A.size_type_bits)
    ∧ update_calls sample_hash .little 0
        (range_of k
          [.tuple_like [.contiguously_hashable (object_bytes .little 4 1),
              .contiguously_hashable (object_bytes .little 4 2)],
            .tuple_like [.contiguously_hashable (object_bytes .little 4 3),
              .contiguously_hashable (object_bytes .little 4 4)]])
      = [object_bytes .little 4 1, object_bytes .little 4 2, object_bytes .little 4 3,
          object_bytes .little 4 4, object_bytes .little 4 2]
    ∧ fed_bytes sample_hash .little 0
        (range_of k
          [.tuple_like [.contiguously_hashable (object_bytes .little 4 1),
              .contiguously_hashable (object_bytes .little 4 2)],
            .tuple_like [.contiguously_hashable (object_bytes .little 4 3),
              .contiguously_hashable (object_bytes .little 4 4)]])
      = [1, 0, 0, 0, 2, 0, 0, 0, 3, 0, 0, 0, 4, 0, 0, 0, 2, 0, 0, 0] := by
  have hcalls : update_calls A e h
        (range_of k (ps.map fun p => .tuple_like
          [.contiguously_hashable (object_bytes e width p.1),
            .contiguously_hashable (object_bytes e width p.2)]))
      = (ps.map fun p => [object_bytes e width p.1, object_bytes e width p.2]).flatten
        ++ [object_bytes e A.size_type_bytes (ps.length % 2 ^ A.size_type_bits)] := by
    rw [update_calls_range_of, List.length_map,
      update_calls_seq_map A e
        (fun p : Nat × Nat => Value.tuple_like
          [.contiguously_hashable (object_bytes e width p.1),
            .contiguously_hashable (object_bytes e width p.2)])
        (fun p => [object_bytes e width p.1, object_bytes e width p.2])
        (fun s p => update_calls_pair_of_leaves A e s _ _)]
  have hflat : ∀ (en : Endian) (qs : List (Nat × Nat)),
      ((qs.map fun p => [object_bytes en width p.1, object_bytes en width p.2]).flatten).flatten
        = (qs.map fun p => object_bytes en width p.1 ++ object_bytes en width p.2).flatten := by
    intro en qs
    induction qs with
    | nil => rfl
    | cons q rest ih => simp [ih]
  refine ⟨hcalls, ?_, ?_, ?_⟩
  · rw [fed_bytes, hcalls, List.flatten_append, hflat]
    simp
  · cases k with
    | contiguous => decide
    | general cat => cases cat <;> decide
  · cases k with
    | contiguous => decide
    | general cat => cases cat <;> decide

/-- C13, counterexample: the capability assignments of a contiguous unordered range and of a
tuple-like unordered range respect both implications (contiguous implies range, unordered
implies range), and each satisfies two of the five guards. -/
theorem one_rule_per_type_counterexample :
    ((type_traits.mk true true true false).is_contiguous_range = true
        → (type_traits.mk true true true false).is_range = true)
      ∧ ((type_traits.mk true true true false).is_unordered_range = true
        → (type_traits.mk true true true false).is_range = true)
      ∧ guard_contiguous_range (type_traits.mk true true true false) = true
      ∧ guard_unordered_range (type_traits.mk true true true false) = true
      ∧ enabled_overloads (type_traits.mk true true true false) = 2
      ∧ ((type_traits.mk true false true true).is_contiguous_range = true
        → (type_traits.mk true false true true).is_range = true)
      ∧ ((type_traits.mk true false true true).is_unordered_range = true
        → (type_traits.mk true false true true).is_range = true)
      ∧ guard_range_tuple (type_traits.mk true false true true) = true
      ∧ guard_unordered_range (type_traits.mk true false true true) = true
      ∧ enabled_overloads (type_traits.mk true false true true) = 2 := by
  decide

/-- C13, amended (one rule per type): for every assignment of the capability predicates in
which contiguous and unordered each imply range and an unordered range is neither contiguous
nor tuple-like, at most one of the five range and tuple guards is satisfied, exactly one when
the type is a range or tuple-like, and none otherwise. -/
theorem one_rule_per_type (t : type_traits)
    (hc : t.is_contiguous_range = true → t.is_range = true)
    (hu : t.is_unordered_range = true → t.is_range = true)
    (hx : t.is_unordered_range = true → t.is_contiguous_range = false ∧ t.is_tuple_like = false) :
    enabled_overloads t ≤ 1
      ∧ (t.is_range = true ∨ t.is_tuple_like = true → enabled_overloads t = 1)
      ∧ (t.is_range = false → t.is_tuple_like = false → enabled_overloads t = 0) := by
  obtain ⟨r, c, u, tl⟩ := t
  cases r <;> cases c <;> cases u <;> cases tl <;> simp_all <;> decide

/-- Witness of C13 (amended): a contiguous container such as `std::vector`. -/
theorem one_rule_per_type_witness :
    ((type_traits.mk true true false false).is_contiguous_range = true
        → (type_traits.mk true true false false).is_range = true)
      ∧ enabled_overloads (type_traits.mk true true false false) = 1 :=
  ⟨fun _ => rfl,
    (one_rule_per_type (type_traits.mk true true false false) (fun _ => rfl)
      (fun hf => absurd hf (by decide)) (fun hf => absurd hf (by decide))).2.1 (Or.inl rfl)⟩

theorem floating_point_not_contiguously_hashable (t : cpp_type)
    (hf : is_floating_point t = true) : is_contiguously_hashable t = false := by
  induction t with
  | const_qualified t ih => exact ih hf
  | floating => rfl
  | _ => simp [is_floating_point] at hf

/-- C16 (contiguous-hashability classification): `is_contiguously_hashable<T, H>` has the same
value for `T`, `T const`, `T[2]` and `T const[2]`; it is true for bool, character, integer,
enumeration and pointer types and false for floating-point types, `nullptr_t` and class
types; so for a floating-point type the leaf overload is disabled and the floating-point
overload is the one `hash_append` runs. -/
theorem contiguously_hashable_classification (t : cpp_type) :
    is_contiguously_hashable (.const_qualified t) = is_contiguously_hashable t
      ∧ is_contiguously_hashable (.array t 2) = is_contiguously_hashable t
      ∧ is_contiguously_hashable (.array (.const_qualified t) 2) = is_contiguously_hashable t
      ∧ is_contiguously_hashable .bool_type = true
      ∧ is_contiguously_hashable .character = true
      ∧ is_contiguously_hashable .integer = true
      ∧ is_contiguously_hashable .enumeration = true
      ∧ is_contiguously_hashable .pointer = true
      ∧ is_contiguously_hashable .floating = false
      ∧ is_contiguously_hashable .nullptr_type = false
      ∧ is_contiguously_hashable .class_type = false
      ∧ (is_floating_point t = true → is_contiguously_hashable t = false)
      ∧ ∀ (A : HashAlgorithm H R) (e : Endian) (h : H) (T : floating_point_type)
          (sign : Bool) (magnitude : Nat) (padding : List byte_type),
          hash_append A e h (.floating_point T sign magnitude padding)
            = do_hash_append_floating_point A e h T sign magnitude padding :=
  ⟨rfl, rfl, rfl, rfl, rfl, rfl, rfl, rfl, rfl, rfl, rfl,
    floating_point_not_contiguously_hashable t, fun _ _ _ _ _ _ _ => rfl⟩

/-- Witness of C16: `double const` is floating point and not contiguously hashable. -/
theorem contiguously_hashable_classification_witness :
    is_floating_point (.const_qualified .floating) = true
      ∧ is_contiguously_hashable (.const_qualified .floating) = false :=
  ⟨rfl, (contiguously_hashable_classification (H := Nat) (R := Nat)
    (.const_qualified .floating)).2.2.2.2.2.2.2.2.2.2.2.1 rfl⟩

theorem floating_point_bits_lt (value_bytes : Nat) (sign : Bool) (magnitude : Nat)
    (hvb : 0 < value_bytes) (hm : magnitude < 2 ^ (8 * value_bytes - 1)) :
    floating_point_bits value_bytes sign magnitude < 256 ^ value_bytes := by
  have hp : (256 : Nat) ^ value_bytes
      = 2 ^ (8 * value_bytes - 1) + 2 ^ (8 * value_bytes - 1) := by
    have h8 : 8 * value_bytes = (8 * value_bytes - 1) + 1 := by omega
    have : (256 : Nat) ^ value_bytes = 2 ^ (8 * value_bytes) := by
      rw [pow_mul]; norm_num
    rw [this]
    conv_lhs => rw [h8, pow_succ]
    ring
  unfold floating_point_bits
  cases sign <;> simp <;> omega

theorem floating_point_nan_not_zero (fraction_bits size magnitude : Nat)
    (hnan : floating_point_is_nan fraction_bits size magnitude = true) :
    floating_point_eq_zero magnitude = false := by
  unfold floating_point_is_nan at hnan
  unfold floating_point_eq_zero
  simp only [Bool.and_eq_true, bne_iff_ne, ne_eq] at hnan
  have h2 := hnan.2
  cases hm : magnitude with
  | zero => rw [hm] at h2; simp at h2
  | succ n => rfl

theorem floating_point_w_of_zero (T : floating_point_type) (sign : Bool) (magnitude : Nat)
    (hz : floating_point_eq_zero magnitude = true) : floating_point_w T sign magnitude = 0 := by
  simp [floating_point_w, hz]

theorem floating_point_w_of_nonzero (T : floating_point_type) (sign : Bool) (magnitude : Nat)
    (hnz : floating_point_eq_zero magnitude = false) :
    floating_point_w T sign magnitude
      = T.copy (floating_point_bits T.value_bytes sign magnitude) := by
  simp [floating_point_w, hnz]

theorem update_calls_floating_point (A : HashAlgorithm H R) (e : Endian) (h : H)
    (T : floating_point_type) (sign : Bool) (magnitude : Nat) (padding : List byte_type) :
    update_calls A e h (.floating_point T sign magnitude padding)
      = [object_bytes e T.value_bytes (floating_point_w T sign magnitude) ++ padding] := rfl

theorem fed_bytes_floating_point (A : HashAlgorithm H R) (e : Endian) (h : H)
    (T : floating_point_type) (sign : Bool) (magnitude : Nat) (padding : List byte_type) :
    fed_bytes A e h (.floating_point T sign magnitude padding)
      = object_bytes e T.value_bytes (floating_point_w T sign magnitude) ++ padding := by
  simp [fed_bytes, update_calls_floating_point]

theorem fed_bytes_floating_point_zero (A : HashAlgorithm H R) (e : Endian) (h : H)
    (T : floating_point_type) (sign : Bool) (magnitude : Nat) (padding : List byte_type)
    (hz : floating_point_eq_zero magnitude = true) :
    fed_bytes A e h (.floating_point T sign magnitude padding)
      = List.replicate T.value_bytes 0 ++ padding := by
  rw [fed_bytes_floating_point, floating_point_w_of_zero T sign magnitude hz, object_bytes_zero]

/-- C17, counterexample: on a platform that copies a `double` through the x87 registers, the
signalling and the quiet NaN of payload 1 have distinct bit patterns, neither compares equal
to zero, and both are fed as the bytes of the quiet one; and for the `long double` of x86-64
the bytes fed for `1.0L` end in the stale padding of the local copy, so they differ from call
to call. -/
theorem floating_point_nonzero_counterexample :
    floating_point_is_nan 52 8 9218868437227405313 = true
      ∧ floating_point_is_nan 52 8 9221120237041090561 = true
      ∧ floating_point_eq_zero 9218868437227405313 = false
      ∧ floating_point_eq_zero 9221120237041090561 = false
      ∧ floating_point_bits 8 false 9218868437227405313
        ≠ floating_point_bits 8 false 9221120237041090561
      ∧ object_bytes .little 8 (floating_point_bits 8 false 9218868437227405313)
        = [1, 0, 0, 0, 0, 0, 240, 127]
      ∧ fed_bytes sample_hash .little 0 (.floating_point x87_double false 9218868437227405313 [])
        = [1, 0, 0, 0, 0, 0, 248, 127]
      ∧ fed_bytes sample_hash .little 0 (.floating_point x87_double false 9221120237041090561 [])
        = [1, 0, 0, 0, 0, 0, 248, 127]
      ∧ fed_bytes sample_hash .little 0
          (.floating_point x87_long_double false 302222231531620438900736
            [170, 170, 170, 170, 170, 170])
        = [0, 0, 0, 0, 0, 0, 0, 128, 255, 63, 170, 170, 170, 170, 170, 170]
      ∧ fed_bytes sample_hash .little 0
          (.floating_point x87_long_double false 302222231531620438900736
            [85, 85, 85, 85, 85, 85])
        = [0, 0, 0, 0, 0, 0, 0, 128, 255, 63, 85, 85, 85, 85, 85, 85] := by
  decide

/-- C17, amended (non-zero floating-point values are fed as copied): for every floating-point
value of a type without padding bytes that does not compare equal to zero, every NaN
included, `hash_append` is one `update` call on exactly the `sizeof(T)` bytes of its local
copy `w`; these are the raw bytes of the value where the copy keeps the bit pattern; two such
values whose copies have distinct bit patterns feed different bytes, and so do two values of
distinct bit patterns where every copy is bit for bit. -/
theorem floating_point_nonzero_rule (A : HashAlgorithm H R) (e : Endian) (h : H)
    (T : floating_point_type) :
    (∀ (sign : Bool) (magnitude : Nat), floating_point_eq_zero magnitude = false →
        hash_append A e h (.floating_point T sign magnitude [])
            = A.update h (object_bytes e T.value_bytes
                (T.copy (floating_point_bits T.value_bytes sign magnitude)))
          ∧ update_calls A e h (.floating_point T sign magnitude [])
            = [object_bytes e T.value_bytes
                (T.copy (floating_point_bits T.value_bytes sign magnitude))]
          ∧ (fed_bytes A e h (.floating_point T sign magnitude [])).length = T.value_bytes
          ∧ (T.copy (floating_point_bits T.value_bytes sign magnitude)
                = floating_point_bits T.value_bytes sign magnitude →
              fed_bytes A e h (.floating_point T sign magnitude [])
                = object_bytes e T.value_bytes
                    (floating_point_bits T.value_bytes sign magnitude)))
      ∧ (∀ (fraction_bits : Nat) (sign : Bool) (magnitude : Nat),
          floating_point_is_nan fraction_bits T.value_bytes magnitude = true →
            update_calls A e h (.floating_point T sign magnitude [])
              = [object_bytes e T.value_bytes
                  (T.copy (floating_point_bits T.value_bytes sign magnitude))])
      ∧ (∀ (sign1 : Bool) (magnitude1 : Nat) (sign2 : Bool) (magnitude2 : Nat),
          floating_point_eq_zero magnitude1 = false →
          floating_point_eq_zero magnitude2 = false →
          T.copy (floating_point_bits T.value_bytes sign1 magnitude1) < 256 ^ T.value_bytes →
          T.copy (floating_point_bits T.value_bytes sign2 magnitude2) < 256 ^ T.value_bytes →
          T.copy (floating_point_bits T.value_bytes sign1 magnitude1)
            ≠ T.copy (floating_point_bits T.value_bytes sign2 magnitude2) →
            fed_bytes A e h (.floating_point T sign1 magnitude1 [])
              ≠ fed_bytes A e h (.floating_point T sign2 magnitude2 []))
      ∧ ((∀ bits : Nat, T.copy bits = bits) → 0 < T.value_bytes →
          ∀ (sign1 : Bool) (magnitude1 : Nat) (sign2 : Bool) (magnitude2 : Nat),
            floating_point_eq_zero magnitude1 = false →
            floating_point_eq_zero magnitude2 = false →
            magnitude1 < 2 ^ (8 * T.value_bytes - 1) →
            magnitude2 < 2 ^ (8 * T.value_bytes - 1) →
            floating_point_bits T.value_bytes sign1 magnitude1
              ≠ floating_point_bits T.value_bytes sign2 magnitude2 →
              fed_bytes A e h (.floating_point T sign1 magnitude1 [])
                ≠ fed_bytes A e h (.floating_point T sign2 magnitude2 [])) := by
  have hcalls : ∀ (sign : Bool) (magnitude : Nat), floating_point_eq_zero magnitude = false →
      update_calls A e h (.floating_point T sign magnitude [])
        = [object_bytes e T.value_bytes
            (T.copy (floating_point_bits T.value_bytes sign magnitude))] := by
    intro sign magnitude hnz
    rw [update_calls_floating_point, floating_point_w_of_nonzero T sign magnitude hnz,
      List.append_nil]
  have hfed : ∀ (sign : Bool) (magnitude : Nat), floating_point_eq_zero magnitude = false →
      fed_bytes A e h (.floating_point T sign magnitude [])
        = object_bytes e T.value_bytes
            (T.copy (floating_point_bits T.value_bytes sign magnitude)) := by
    intro sign magnitude hnz
    rw [fed_bytes, hcalls sign magnitude hnz]
    simp
  have hdiff : ∀ (sign1 : Bool) (magnitude1 : Nat) (sign2 : Bool) (magnitude2 : Nat),
      floating_point_eq_zero magnitude1 = false →
      floating_point_eq_zero magnitude2 = false →
      T.copy (floating_point_bits T.value_bytes sign1 magnitude1) < 256 ^ T.value_bytes →
      T.copy (floating_point_bits T.value_bytes sign2 magnitude2) < 256 ^ T.value_bytes →
      T.copy (floating_point_bits T.value_bytes sign1 magnitude1)
        ≠ T.copy (floating_point_bits T.value_bytes sign2 magnitude2) →
        fed_bytes A e h (.floating_point T sign1 magnitude1 [])
          ≠ fed_bytes A e h (.floating_point T sign2 magnitude2 []) := by
    intro sign1 magnitude1 sign2 magnitude2 hnz1 hnz2 hlt1 hlt2 hne heq
    rw [hfed sign1 magnitude1 hnz1, hfed sign2 magnitude2 hnz2] at heq
    exact hne (object_bytes_injective e T.value_bytes _ _ hlt1 hlt2 heq)
  refine ⟨?_, ?_, hdiff, ?_⟩
  · intro sign magnitude hnz
    refine ⟨?_, hcalls sign magnitude hnz, ?_, ?_⟩
    · simp only [hash_append, do_hash_append_floating_point, hash_append_range_byte_pointer,
        floating_point_w_of_nonzero T sign magnitude hnz, List.append_nil]
    · rw [hfed sign magnitude hnz, object_bytes_length]
    · intro hkeep
      rw [hfed sign magnitude hnz, hkeep]
  · intro fraction_bits sign magnitude hnan
    exact hcalls sign magnitude (floating_point_nan_not_zero fraction_bits _ magnitude hnan)
  · intro hid hvb sign1 magnitude1 sign2 magnitude2 hnz1 hnz2 hm1 hm2 hne
    apply hdiff sign1 magnitude1 sign2 magnitude2 hnz1 hnz2
    · rw [hid]; exact floating_point_bits_lt T.value_bytes sign1 magnitude1 hvb hm1
    · rw [hid]; exact floating_point_bits_lt T.value_bytes sign2 magnitude2 hvb hm2
    · rw [hid, hid]; exact hne

/-- Witness of C17 (amended) on the sample accumulator: two `double` NaNs whose payloads are 1
and 2, copied bit for bit. -/
theorem floating_point_nonzero_rule_witness :
    floating_point_is_nan 52 8 9218868437227405313 = true
      ∧ floating_point_is_nan 52 8 9218868437227405314 = true
      ∧ update_calls sample_hash .little 0 (.floating_point binary64 false 9218868437227405313 [])
        = [object_bytes .little 8 (floating_point_bits 8 false 9218868437227405313)]
      ∧ fed_bytes sample_hash .little 0 (.floating_point binary64 false 9218868437227405313 [])
        ≠ fed_bytes sample_hash .little 0
            (.floating_point binary64 false 9218868437227405314 []) :=
  ⟨by decide, by decide,
    (floating_point_nonzero_rule sample_hash .little 0 binary64).2.1 52 false
      9218868437227405313 (by decide),
    (floating_point_nonzero_rule sample_hash .little 0 binary64).2.2.2 (fun _ => rfl)
      (by decide) false 9218868437227405313 false 9218868437227405314 (by decide) (by decide)
      (by decide) (by decide) (by decide)⟩

theorem fed_bytes_pair (A : HashAlgorithm H R) (e : Endian) (h : H) (x y : Value) :
    fed_bytes A e h (.tuple_like [x, y])
      = fed_bytes A e h x ++ fed_bytes A e (hash_append A e h x) y := by
  simp only [fed_bytes, update_calls_tuple_like, update_calls_seq, List.append_nil,
    List.flatten_append]

theorem fed_bytes_contiguously_hashable (A : HashAlgorithm H R) (e : Endian) (h : H)
    (bs : List byte_type) : fed_bytes A e h (.contiguously_hashable bs) = bs := by
  simp [fed_bytes, update_calls_contiguously_hashable]

theorem fed_bytes_state_free (A : HashAlgorithm H R) (e : Endian) (h h' : H) (x : Value)
    (hx : x.unordered_free = true) : fed_bytes A e h x = fed_bytes A e h' x := by
  unfold fed_bytes
  rw [update_calls_state_free A e x h h' hx]

theorem append_ne_of_incomparable {α : Type} (x y x' y' : List α)
    (hxy : ¬ List.IsPrefix x y) (hyx : ¬ List.IsPrefix y x) : x ++ y' ≠ y ++ x' := by
  intro heq
  rcases List.append_eq_append_iff.mp heq with ⟨a, ha, _⟩ | ⟨c, hc, _⟩
  · exact hxy ⟨a, ha.symm⟩
  · exact hyx ⟨c, hc.symm⟩

theorem incomparable_of_length_eq {α : Type} (x y : List α) (hlen : x.length = y.length)
    (hne : x ≠ y) : ¬ List.IsPrefix x y := by
  rintro ⟨t, ht⟩
  have hl : t.length = 0 := by
    have := congrArg List.length ht
    simp only [List.length_append] at this
    omega
  rw [List.length_eq_zero.mp hl, List.append_nil] at ht
  exact hne ht

theorem pair_order_sensitive_of_incomparable (A : HashAlgorithm H R) (e : Endian) (h : H)
    (x y : Value) (hxy : ¬ List.IsPrefix (fed_bytes A e h x) (fed_bytes A e h y))
    (hyx : ¬ List.IsPrefix (fed_bytes A e h y) (fed_bytes A e h x)) :
    fed_bytes A e h (.tuple_like [x, y]) ≠ fed_bytes A e h (.tuple_like [y, x]) := by
  rw [fed_bytes_pair, fed_bytes_pair]
  exact append_ne_of_incomparable _ _ _ _ hxy hyx

theorem floating_point_w_ne (T : floating_point_type) (sign1 : Bool) (magnitude1 : Nat)
    (sign2 : Bool) (magnitude2 : Nat) (hid : ∀ bits : Nat, T.copy bits = bits)
    (hnz : ¬ (floating_point_eq_zero magnitude1 = true
      ∧ floating_point_eq_zero magnitude2 = true))
    (hbits : floating_point_bits T.value_bytes sign1 magnitude1
      ≠ floating_point_bits T.value_bytes sign2 magnitude2) :
    floating_point_w T sign1 magnitude1 ≠ floating_point_w T sign2 magnitude2 := by
  have hge1 : magnitude1 ≤ floating_point_bits T.value_bytes sign1 magnitude1 := by
    unfold floating_point_bits; omega
  have hge2 : magnitude2 ≤ floating_point_bits T.value_bytes sign2 magnitude2 := by
    unfold floating_point_bits; omega
  cases hz1 : floating_point_eq_zero magnitude1 <;>
    cases hz2 : floating_point_eq_zero magnitude2
  · rw [floating_point_w_of_nonzero T _ _ hz1, floating_point_w_of_nonzero T _ _ hz2, hid, hid]
    exact hbits
  · rw [floating_point_w_of_nonzero T _ _ hz1, floating_point_w_of_zero T _ _ hz2, hid]
    simp only [floating_point_eq_zero, beq_eq_false_iff_ne, ne_eq] at hz1
    omega
  · rw [floating_point_w_of_zero T _ _ hz1, floating_point_w_of_nonzero T _ _ hz2, hid]
    simp only [floating_point_eq_zero, beq_eq_false_iff_ne, ne_eq] at hz2
    omega
  · exact absurd ⟨hz1, hz2⟩ hnz

theorem floating_point_w_lt (T : floating_point_type) (sign : Bool) (magnitude : Nat)
    (hid : ∀ bits : Nat, T.copy bits = bits) (hvb : 0 < T.value_bytes)
    (hm : magnitude < 2 ^ (8 * T.value_bytes - 1)) :
    floating_point_w T sign magnitude < 256 ^ T.value_bytes := by
  unfold floating_point_w
  split
  · positivity
  · rw [hid]; exact floating_point_bits_lt T.value_bytes sign magnitude hvb hm

/-- C15, counterexample: a `double` NaN satisfies `a != b` against a copy of itself, and the
tuples `(a, b)` and `(b, a)` feed the same sixteen bytes; under a 32-bit `size_type`, the
empty range `a` and the range `b` of `2 ^ 32` empty tuples differ in length, and the tuples
`(a, b)` and `(b, a)` both feed eight zero bytes. -/
theorem tuple_order_counterexample :
    floating_point_ne 52 8 false 9221120237041090560 false 9221120237041090560 = true
      ∧ fed_bytes sample_hash .little 0
          (.tuple_like [.floating_point binary64 false 9221120237041090560 [],
            .floating_point binary64 false 9221120237041090560 []])
        = [0, 0, 0, 0, 0, 0, 248, 127, 0, 0, 0, 0, 0, 0, 248, 127]
      ∧ sized_range_count (.contiguous_range (.iterator .random_access [])) = some 0
      ∧ sized_range_count (.contiguous_range (.iterator .random_access
          (List.replicate 4294967296 (.tuple_like [])))) = some 4294967296
      ∧ fed_bytes sample_hash .little 0
          (.tuple_like [.contiguous_range (.iterator .random_access []),
            .contiguous_range (.iterator .random_access
              (List.replicate 4294967296 (.tuple_like [])))])
        = [0, 0, 0, 0, 0, 0, 0, 0]
      ∧ fed_bytes sample_hash .little 0
          (.tuple_like [.contiguous_range (.iterator .random_access
              (List.replicate 4294967296 (.tuple_like []))),
            .contiguous_range (.iterator .random_access [])])
        = [0, 0, 0, 0, 0, 0, 0, 0] := by
  have hempty : ∀ s : Nat,
      fed_bytes sample_hash .little s (.contiguous_range (.iterator .random_access []))
        = [0, 0, 0, 0] := by
    intro s
    have := fed_bytes_replicate_empty_tuple sample_hash .little s 0
    simp only [List.replicate_zero] at this
    rw [this]
    decide
  have hbig : ∀ s : Nat,
      fed_bytes sample_hash .little s (.contiguous_range (.iterator .random_access
        (List.replicate 4294967296 (.tuple_like [])))) = [0, 0, 0, 0] := by
    intro s
    rw [fed_bytes_replicate_empty_tuple]
    decide
  refine ⟨by decide, by decide, rfl, ?_, ?_, ?_⟩
  · simp only [sized_range_count, iterator_range.distance, List.length_replicate]
  · rw [fed_bytes_pair, hempty, hbig]
    rfl
  · rw [fed_bytes_pair, hempty, hbig]
    rfl

/-- C15, amended (tuple order sensitivity): the byte sequence `hash_append` feeds for the tuple
`(x, y)` differs from the one it feeds for `(y, x)` whenever neither of the byte sequences fed
for `x` and for `y` from the starting state of the tuple is a prefix of the other, and
whenever `x` and `y` are sized ranges whose element counts differ modulo `2 ^ w`; for values
that hold no unordered range the two tuples feed the same bytes exactly when the byte
sequences fed for `x` and for `y` commute under concatenation. The first case holds for two
values of one contiguously hashable type whose object representations differ and for two
floating-point values of one type whose local copies `w` have different bit patterns, so for
two values with different bit patterns that are not both zero where copies are bit for
bit. -/
theorem tuple_order_sensitive (A : HashAlgorithm H R) (e : Endian) (h : H) :
    (∀ x y : Value,
        ¬ List.IsPrefix (fed_bytes A e h x) (fed_bytes A e h y) →
        ¬ List.IsPrefix (fed_bytes A e h y) (fed_bytes A e h x) →
          fed_bytes A e h (.tuple_like [x, y]) ≠ fed_bytes A e h (.tuple_like [y, x]))
      ∧ (∀ (x y : Value) (n1 n2 : Nat),
          sized_range_count x = some n1 → sized_range_count y = some n2 →
          n1 % 2 ^ A.size_type_bits ≠ n2 % 2 ^ A.size_type_bits →
            fed_bytes A e h (.tuple_like [x, y]) ≠ fed_bytes A e h (.tuple_like [y, x]))
      ∧ (∀ x y : Value, x.unordered_free = true → y.unordered_free = true →
          (fed_bytes A e h (.tuple_like [x, y]) = fed_bytes A e h (.tuple_like [y, x])
            ↔ fed_bytes A e h x ++ fed_bytes A e h y
              = fed_bytes A e h y ++ fed_bytes A e h x))
      ∧ (∀ a b : List byte_type, a.length = b.length → a ≠ b →
          fed_bytes A e h (.tuple_like [.contiguously_hashable a, .contiguously_hashable b])
            ≠ fed_bytes A e h
                (.tuple_like [.contiguously_hashable b, .contiguously_hashable a]))
      ∧ (∀ (T : floating_point_type) (sign1 : Bool) (magnitude1 : Nat) (sign2 : Bool)
          (magnitude2 : Nat) (p1 p2 p3 p4 : List byte_type),
          floating_point_w T sign1 magnitude1 < 256 ^ T.value_bytes →
          floating_point_w T sign2 magnitude2 < 256 ^ T.value_bytes →
          floating_point_w T sign1 magnitude1 ≠ floating_point_w T sign2 magnitude2 →
            fed_bytes A e h
                (.tuple_like [.floating_point T sign1 magnitude1 p1,
                  .floating_point T sign2 magnitude2 p2])
              ≠ fed_bytes A e h
                (.tuple_like [.floating_point T sign2 magnitude2 p3,
                  .floating_point T sign1 magnitude1 p4]))
      ∧ (∀ (T : floating_point_type) (sign1 : Bool) (magnitude1 : Nat) (sign2 : Bool)
          (magnitude2 : Nat) (p1 p2 p3 p4 : List byte_type),
          (∀ bits : Nat, T.copy bits = bits) → 0 < T.value_bytes →
          magnitude1 < 2 ^ (8 * T.value_bytes - 1) →
          magnitude2 < 2 ^ (8 * T.value_bytes - 1) →
          ¬ (floating_point_eq_zero magnitude1 = true
            ∧ floating_point_eq_zero magnitude2 = true) →
          floating_point_bits T.value_bytes sign1 magnitude1
            ≠ floating_point_bits T.value_bytes sign2 magnitude2 →
            fed_bytes A e h
                (.tuple_like [.floating_point T sign1 magnitude1 p1,
                  .floating_point T sign2 magnitude2 p2])
              ≠ fed_bytes A e h
                (.tuple_like [.floating_point T sign2 magnitude2 p3,
                  .floating_point T sign1 magnitude1 p4])) := by
  have hfloat : ∀ (T : floating_point_type) (sign1 : Bool) (magnitude1 : Nat) (sign2 : Bool)
      (magnitude2 : Nat) (p1 p2 p3 p4 : List byte_type),
      floating_point_w T sign1 magnitude1 < 256 ^ T.value_bytes →
      floating_point_w T sign2 magnitude2 < 256 ^ T.value_bytes →
      floating_point_w T sign1 magnitude1 ≠ floating_point_w T sign2 magnitude2 →
        fed_bytes A e h
            (.tuple_like [.floating_point T sign1 magnitude1 p1,
              .floating_point T sign2 magnitude2 p2])
          ≠ fed_bytes A e h
            (.tuple_like [.floating_point T sign2 magnitude2 p3,
              .floating_point T sign1 magnitude1 p4]) := by
    intro T sign1 magnitude1 sign2 magnitude2 p1 p2 p3 p4 hlt1 hlt2 hne heq
    simp only [fed_bytes_pair, fed_bytes_floating_point, List.append_assoc] at heq
    have := List.append_inj_left heq (by rw [object_bytes_length, object_bytes_length])
    exact hne (object_bytes_injective e T.value_bytes _ _ hlt1 hlt2 this)
  refine ⟨pair_order_sensitive_of_incomparable A e h, ?_, ?_, ?_, hfloat, ?_⟩
  · intro x y n1 n2 c1 c2 hne heq
    rw [fed_bytes_pair, fed_bytes_pair] at heq
    obtain ⟨q2, hq2⟩ := fed_bytes_sized_range A e (hash_append A e h x) y n2 c2
    obtain ⟨q1, hq1⟩ := fed_bytes_sized_range A e (hash_append A e h y) x n1 c1
    rw [hq2, hq1, ← List.append_assoc, ← List.append_assoc] at heq
    have := List.append_inj_right' heq (by rw [object_bytes_length, object_bytes_length])
    exact hne (size_bytes_injective A e n1 n2 this.symm)
  · intro x y hx hy
    rw [fed_bytes_pair, fed_bytes_pair,
      fed_bytes_state_free A e (hash_append A e h x) h y hy,
      fed_bytes_state_free A e (hash_append A e h y) h x hx]
  · intro a b hlen hab
    apply pair_order_sensitive_of_incomparable
    · rw [fed_bytes_contiguously_hashable, fed_bytes_contiguously_hashable]
      exact incomparable_of_length_eq a b hlen hab
    · rw [fed_bytes_contiguously_hashable, fed_bytes_contiguously_hashable]
      exact incomparable_of_length_eq b a hlen.symm (Ne.symm hab)
  · intro T sign1 magnitude1 sign2 magnitude2 p1 p2 p3 p4 hid hvb hm1 hm2 hnz hbits
    exact hfloat T sign1 magnitude1 sign2 magnitude2 p1 p2 p3 p4
      (floating_point_w_lt T sign1 magnitude1 hid hvb hm1)
      (floating_point_w_lt T sign2 magnitude2 hid hvb hm2)
      (floating_point_w_ne T sign1 magnitude1 sign2 magnitude2 hid hnz hbits)

/-- Witness of C15 (amended) on the sample accumulator: the strings `a` and `bc`, as sized
ranges of bytes of counts 1 and 2; the 32-bit integers 1 and 2; the `double` values negative
zero and one. -/
theorem tuple_order_sensitive_witness :
    ¬ List.IsPrefix (fed_bytes sample_hash .little 0 (byte_range .contiguous_chars [97]))
        (fed_bytes sample_hash .little 0 (byte_range .contiguous_chars [98, 99]))
      ∧ fed_bytes sample_hash .little 0
          (.tuple_like [byte_range .contiguous_chars [97], byte_range .contiguous_chars [98, 99]])
        ≠ fed_bytes sample_hash .little 0
          (.tuple_like [byte_range .contiguous_chars [98, 99], byte_range .contiguous_chars [97]])
      ∧ 1 % 2 ^ sample_hash.size_type_bits ≠ 2 % 2 ^ sample_hash.size_type_bits
      ∧ (fed_bytes sample_hash .little 0
            (.tuple_like [byte_range .contiguous_chars [97],
              byte_range .contiguous_chars [98, 99]])
          = fed_bytes sample_hash .little 0
            (.tuple_like [byte_range .contiguous_chars [98, 99],
              byte_range .contiguous_chars [97]])
        ↔ fed_bytes sample_hash .little 0 (byte_range .contiguous_chars [97])
            ++ fed_bytes sample_hash .little 0 (byte_range .contiguous_chars [98, 99])
          = fed_bytes sample_hash .little 0 (byte_range .contiguous_chars [98, 99])
            ++ fed_bytes sample_hash .little 0 (byte_range .contiguous_chars [97]))
      ∧ fed_bytes sample_hash .little 0
          (.tuple_like [.contiguously_hashable [1, 0, 0, 0], .contiguously_hashable [2, 0, 0, 0]])
        ≠ fed_bytes sample_hash .little 0
          (.tuple_like [.contiguously_hashable [2, 0, 0, 0], .contiguously_hashable [1, 0, 0, 0]])
      ∧ fed_bytes sample_hash .little 0
          (.tuple_like [.floating_point binary64 true 0 [],
            .floating_point binary64 false 4607182418800017408 []])
        ≠ fed_bytes sample_hash .little 0
          (.tuple_like [.floating_point binary64 false 4607182418800017408 [],
            .floating_point binary64 true 0 []]) :=
  ⟨by decide,
    (tuple_order_sensitive sample_hash .little 0).1 (byte_range .contiguous_chars [97])
      (byte_range .contiguous_chars [98, 99]) (by decide) (by decide),
    by decide,
    (tuple_order_sensitive sample_hash .little 0).2.2.1 (byte_range .contiguous_chars [97])
      (byte_range .contiguous_chars [98, 99]) rfl rfl,
    (tuple_order_sensitive sample_hash .little 0).2.2.2.1 [1, 0, 0, 0] [2, 0, 0, 0] rfl
      (by decide),
    (tuple_order_sensitive sample_hash .little 0).2.2.2.2.2 binary64 true 0 false
      4607182418800017408 [] [] [] [] (fun _ => rfl) (by decide) (by decide) (by decide)
      (by decide) (by decide)⟩

theorem exists_adjacent_ne {α : Type} (l : List α) (a b : α) (ha : a ∈ l) (hb : b ∈ l)
    (hab : a ≠ b) : ∃ p x y q, l = p ++ x :: y :: q ∧ x ≠ y := by
  induction l with
  | nil => simp at ha
  | cons x t ih =>
    cases t with
    | nil =>
      simp only [List.mem_singleton] at ha hb
      exact absurd (ha.trans hb.symm) hab
    | cons y t' =>
      by_cases hxy : x = y
      · have ha' : a ∈ y :: t' := by
          rcases List.mem_cons.mp ha with h1 | h1
          · rw [h1, hxy]; exact List.mem_cons_self _ _
          · exact h1
        have hb' : b ∈ y :: t' := by
          rcases List.mem_cons.mp hb with h1 | h1
          · rw [h1, hxy]; exact List.mem_cons_self _ _
          · exact h1
        obtain ⟨p, u, v, q, hl, huv⟩ := ih ha' hb'
        exact ⟨x :: p, u, v, q, by rw [hl]; rfl, huv⟩
      · exact ⟨[], x, y, t', rfl, hxy⟩

/-- C18 (order sensitivity of ordered ranges): for every sized range, contiguous or general,
of `width`-byte integers that holds two distinct elements, some permutation of its elements
makes `hash_append` feed a byte sequence different from the one fed for the original order;
the same holds for every sized range of bytes that holds two distinct bytes. -/
theorem ordered_range_order_sensitive (A : HashAlgorithm H R) (e : Endian) (h : H)
    (k : sized_range_kind) (width : Nat) (xs : List Nat) (hx : ∀ x ∈ xs, x < 256 ^ width)
    (a b : Nat) (ha : a ∈ xs) (hb : b ∈ xs) (hab : a ≠ b)
    (kb : byte_range_kind) (bs : List byte_type) (c d : byte_type) (hc : c ∈ bs) (hd : d ∈ bs)
    (hcd : c ≠ d) :
    (∃ ys : List Nat, ys.Perm xs
      ∧ fed_bytes A e h (integer_range e k width ys)
        ≠ fed_bytes A e h (integer_range e k width xs))
    ∧ ∃ bs' : List byte_type, bs'.Perm bs
      ∧ fed_bytes A e h (byte_range kb bs') ≠ fed_bytes A e h (byte_range kb bs) := by
  constructor
  case right =>
    obtain ⟨p, x, y, q, hl, hxy⟩ := exists_adjacent_ne bs c d hc hd hcd
    refine ⟨p ++ y :: x :: q, ?_, ?_⟩
    · rw [hl]
      exact List.Perm.append_left p (List.Perm.swap x y q)
    · rw [fed_bytes_byte_range, fed_bytes_byte_range, hl]
      intro heq
      have hlen : (p ++ y :: x :: q).length = (p ++ x :: y :: q).length := by simp
      rw [hlen] at heq
      have h1 := List.append_cancel_left (List.append_cancel_right heq)
      simp only [List.cons.injEq] at h1
      exact hxy h1.1.symm
  obtain ⟨p, x, y, q, hl, hxy⟩ := exists_adjacent_ne xs a b ha hb hab
  refine ⟨p ++ y :: x :: q, ?_, ?_⟩
  · rw [hl]
    exact List.Perm.append_left p (List.Perm.swap x y q)
  · rw [fed_bytes_integer_range, fed_bytes_integer_range, hl]
    intro heq
    have hlen : (p ++ y :: x :: q).length = (p ++ x :: y :: q).length := by simp
    rw [hlen] at heq
    have h1 := List.append_cancel_right heq
    simp only [List.map_append, List.map_cons, List.flatten_append, List.flatten_cons] at h1
    have h2 := List.append_cancel_left h1
    have h3 := List.append_inj_left h2 (by rw [object_bytes_length, object_bytes_length])
    have hxm : x ∈ xs := by rw [hl]; simp
    have hym : y ∈ xs := by rw [hl]; simp
    exact hxy (object_bytes_injective e width x y (hx x hxm) (hx y hym) h3.symm)

/-- Witness of C18 on the sample accumulator: the range `[1, 2, 1]` of 32-bit integers and
the range `[7, 7, 9]` of bytes. -/
theorem ordered_range_order_sensitive_witness :
    (∀ x ∈ [1, 2, 1], x < 256 ^ 4)
      ∧ (∃ ys : List Nat, ys.Perm [1, 2, 1]
        ∧ fed_bytes sample_hash .little 0 (integer_range .little .contiguous 4 ys)
          ≠ fed_bytes sample_hash .little 0 (integer_range .little .contiguous 4 [1, 2, 1]))
      ∧ ∃ bs' : List byte_type, bs'.Perm [7, 7, 9]
        ∧ fed_bytes sample_hash .little 0 (byte_range .contiguous_bytes bs')
          ≠ fed_bytes sample_hash .little 0 (byte_range .contiguous_bytes [7, 7, 9]) :=
  ⟨by decide,
    ordered_range_order_sensitive sample_hash .little 0 .contiguous 4 [1, 2, 1] (by decide)
      1 2 (by decide) (by decide) (by decide) .contiguous_bytes [7, 7, 9] 7 9 (by decide)
      (by decide) (by decide)⟩

theorem update_calls_byte_range_state_free (A : HashAlgorithm H R) (e : Endian) (h h' : H)
    (k : byte_range_kind) (bs : List byte_type) :
    update_calls A e h (byte_range k bs) = update_calls A e h' (byte_range k bs) := by
  cases k with
  | contiguous_bytes => rfl
  | contiguous_chars => rfl
  | general cat =>
    simp only [byte_range, update_calls_range_iterator]
    rw [update_calls_seq_map A e (fun b => Value.contiguously_hashable [b]) (fun b => [[b]])
        (fun _ _ => rfl),
      update_calls_seq_map A e (fun b => Value.contiguously_hashable [b]) (fun b => [[b]])
        (fun _ _ => rfl)]

theorem fed_bytes_range_of_byte_ranges (A : HashAlgorithm H R) (e : Endian) (h : H)
    (outer : sized_range_kind) (inner : byte_range_kind) (vv : List (List byte_type)) :
    fed_bytes A e h (range_of_byte_ranges outer inner vv)
      = (vv.map fun bs =>
            bs ++ object_bytes e A.size_type_bytes (bs.length % 2 ^ A.size_type_bits)).flatten
        ++ object_bytes e A.size_type_bytes (vv.length % 2 ^ A.size_type_bits) := by
  rw [fed_bytes, range_of_byte_ranges, update_calls_range_of, List.length_map,
    update_calls_seq_map A e (byte_range inner)
      (fun bs => update_calls A e h (byte_range inner bs))
      (fun s bs => update_calls_byte_range_state_free A e s h inner bs)]
  simp only [List.flatten_append, List.flatten_cons, List.flatten_nil, List.append_nil]
  congr 1
  induction vv with
  | nil => rfl
  | cons bs rest ih =>
    simp only [List.map_cons, List.flatten_cons, List.flatten_append, ih,
      update_calls_byte_range]

theorem size_suffixed_injective (A : HashAlgorithm H R) (e : Endian)
    (v1 v2 : List (List byte_type))
    (hb1 : ∀ bs ∈ v1, bs.length < 2 ^ A.size_type_bits)
    (hb2 : ∀ bs ∈ v2, bs.length < 2 ^ A.size_type_bits)
    (hlen : v1.length = v2.length)
    (heq : (v1.map fun bs =>
          bs ++ object_bytes e A.size_type_bytes (bs.length % 2 ^ A.size_type_bits)).flatten
      = (v2.map fun bs =>
          bs ++ object_bytes e A.size_type_bytes (bs.length % 2 ^ A.size_type_bits)).flatten) :
    v1 = v2 := by
  induction v1 using List.reverseRecOn generalizing v2 with
  | nil =>
    cases v2 with
    | nil => rfl
    | cons _ _ => simp at hlen
  | append_singleton l1 a ih =>
    rcases List.eq_nil_or_concat v2 with h2 | ⟨l2, b, h2⟩
    · subst h2; simp at hlen
    · rw [List.concat_eq_append] at h2
      subst h2
      simp only [List.map_append, List.map_cons, List.map_nil, List.flatten_append,
        List.flatten_cons, List.flatten_nil, List.append_nil, ← List.append_assoc] at heq
      have hs := List.append_inj_right' heq (by rw [object_bytes_length, object_bytes_length])
      have hn := size_bytes_injective A e a.length b.length hs
      have ha : a.length < 2 ^ A.size_type_bits := hb1 a (by simp)
      have hb : b.length < 2 ^ A.size_type_bits := hb2 b (by simp)
      rw [Nat.mod_eq_of_lt ha, Nat.mod_eq_of_lt hb] at hn
      have hbody := List.append_inj_left' heq (by rw [object_bytes_length, object_bytes_length])
      have hab : a = b := List.append_inj_right' hbody hn
      have hrest := List.append_inj_left' hbody hn
      have hl : l1.length = l2.length := by simpa using hlen
      have := ih l2 (fun bs hbs => hb1 bs (by simp [hbs])) (fun bs hbs => hb2 bs (by simp [hbs]))
        hl hrest
      rw [this, hab]

/-- C19 (injectivity of nested sized ranges): two sized ranges of sized ranges of bytes, all
of whose lengths are below `2 ^ w`, `w` the bit width of `size_type`, that make `hash_append`
feed the same byte stream are equal; every range being followed by its count, the stream is
decoded from its end. -/
theorem nested_sized_range_injective (A : HashAlgorithm H R) (e : Endian) (h : H)
    (outer : sized_range_kind) (inner : byte_range_kind) (v1 v2 : List (List byte_type))
    (hn1 : v1.length < 2 ^ A.size_type_bits) (hn2 : v2.length < 2 ^ A.size_type_bits)
    (hb1 : ∀ bs ∈ v1, bs.length < 2 ^ A.size_type_bits)
    (hb2 : ∀ bs ∈ v2, bs.length < 2 ^ A.size_type_bits)
    (heq : fed_bytes A e h (range_of_byte_ranges outer inner v1)
      = fed_bytes A e h (range_of_byte_ranges outer inner v2)) :
    v1 = v2
      ∧ range_of_byte_ranges outer inner v1 = range_of_byte_ranges outer inner v2 := by
  rw [fed_bytes_range_of_byte_ranges, fed_bytes_range_of_byte_ranges] at heq
  have hs := List.append_inj_right' heq (by rw [object_bytes_length, object_bytes_length])
  have hn := size_bytes_injective A e v1.length v2.length hs
  rw [Nat.mod_eq_of_lt hn1, Nat.mod_eq_of_lt hn2] at hn
  have hbody := List.append_inj_left' heq (by rw [object_bytes_length, object_bytes_length])
  have hv := size_suffixed_injective A e v1 v2 hb1 hb2 hn hbody
  exact ⟨hv, by rw [hv]⟩

/-- Witness of C19 on the sample accumulator: the nested range `[[1, 2], []]`. -/
theorem nested_sized_range_injective_witness :
    (∀ bs ∈ [[1, 2], []], (bs : List byte_type).length < 2 ^ sample_hash.size_type_bits)
      ∧ fed_bytes sample_hash .little 0
          (range_of_byte_ranges .contiguous .contiguous_bytes [[1, 2], []])
        = [1, 2, 2, 0, 0, 0, 0, 0, 0, 0, 2, 0, 0, 0]
      ∧ ([[1, 2], []] : List (List byte_type)) = [[1, 2], []] :=
  ⟨by decide, by decide,
    (nested_sized_range_injective sample_hash .little 0 .contiguous .contiguous_bytes
      [[1, 2], []] [[1, 2], []] (by decide) (by decide) (by decide) (by decide) rfl).1⟩

end Properties

end hash2
